import Mathlib

/-!
Verification development for the `dbus-stream` crate: a shallow embedding of
the D-Bus type system, wire codec, message framing and connection front end,
with theorems settling the specification claims against the source.

Buffers and wire data are modelled as `List Nat` (one `Nat` per byte, values
intended `< 256`); fallible Rust code (`crate::Result`, nom parsers, and
`todo!()` arms) is modelled with `Option`.
-/

namespace DBusStream

/-! ## Byte-level helpers -/

/-- Big-endian byte encoding of `n` into `w` bytes
(`u32::to_be_bytes` and friends). -/
def natToBEBytes : Nat → Nat → List Nat
  | 0, _ => []
  | w + 1, n => natToBEBytes w (n / 256) ++ [n % 256]

/-- Big-endian value of a byte list (what `be_u32` etc. compute). -/
def beVal (bs : List Nat) : Nat :=
  bs.foldl (fun acc b => acc * 256 + b) 0

/-- Little-endian value of a byte list (what `le_u32` computes). -/
def leVal (bs : List Nat) : Nat :=
  bs.foldr (fun b acc => acc * 256 + b) 0

/-- Two's-complement representation of an integer in `w` bits
(`iN::to_be_bytes` goes through this). -/
def toTwos (w : Nat) (i : Int) : Nat :=
  (i % ((2 : Int) ^ w)).toNat

/-- Signed interpretation of a `w`-bit two's-complement value
(`be_i16` / `be_i32` / `be_i64`). -/
def fromTwos (w : Nat) (n : Nat) : Int :=
  if n < 2 ^ (w - 1) then (n : Int) else (n : Int) - (2 : Int) ^ w

/-- Number of zero bytes the `Marshaller::align` /`Encoder::align` loop
(`while buf.len() % alignment != 0 { buf.push(0) }`) pushes from
position `n` for alignment `a`. -/
def alignPad (n a : Nat) : Nat :=
  if a = 0 then 0 else (a - n % a) % a

/-- `align`: push null bytes until the buffer length is a multiple of `a`. -/
def alignTo (buf : List Nat) (a : Nat) : List Nat :=
  buf ++ List.replicate (alignPad buf.length a) 0

/-- `Vec::splice` as used by the `reserve_n_bytes` backfill closure:
overwrite `repl.length` bytes starting at `idx`. -/
def spliceAt (buf : List Nat) (idx : Nat) (repl : List Nat) : List Nat :=
  buf.take idx ++ repl ++ buf.drop (idx + repl.length)

/-- UTF-8 bytes of an ASCII string literal (all source literals are ASCII). -/
def asciiBytes (s : String) : List Nat :=
  s.data.map Char.toNat

/-! ## Signatures (`type_system/signature.rs`) -/

/-- `SingleCompleteTypeSignature`. -/
inductive SCTS where
  | byte
  | boolean
  | int16
  | uint16
  | int32
  | uint32
  | int64
  | uint64
  | double
  | string
  | objectPath
  | signature
  | unixFileDescriptor
  | array (inner : SCTS)
  | struct (fields : List SCTS)
  | variant
  | dictEntry (key value : SCTS)

namespace SCTS

/-- `SingleCompleteTypeSignature::is_basic_type`. -/
def is_basic_type : SCTS → Bool
  | .byte | .boolean | .int16 | .uint16 | .int32 | .uint32
  | .int64 | .uint64 | .double | .string | .objectPath
  | .signature | .unixFileDescriptor => true
  | .array _ | .struct _ | .variant | .dictEntry _ _ => false

/-- `SingleCompleteTypeSignature::marshalling_boundary`. -/
def marshalling_boundary : SCTS → Nat
  | .byte => 1
  | .boolean => 4
  | .int16 => 2
  | .uint16 => 2
  | .int32 => 4
  | .uint32 => 4
  | .int64 => 8
  | .uint64 => 8
  | .double => 8
  | .string => 4
  | .objectPath => 4
  | .signature => 1
  | .unixFileDescriptor => 4
  | .array _ => 4
  | .struct _ => 8
  | .variant => 1
  | .dictEntry _ _ => 8

end SCTS

mutual
/-- `SingleCompleteTypeSignature::serialize`: ASCII text of the signature
(byte literals spelled as their ASCII codes, as in Rust `b'y'` = 121 etc.). -/
def SCTS.serialize : SCTS → List Nat
  | .byte => [121]                -- b'y'
  | .boolean => [98]              -- b'b'
  | .int16 => [110]               -- b'n'
  | .uint16 => [113]              -- b'q'
  | .int32 => [105]               -- b'i'
  | .uint32 => [117]              -- b'u'
  | .int64 => [120]               -- b'x'
  | .uint64 => [116]              -- b't'
  | .double => [100]              -- b'd'
  | .string => [115]              -- b's'
  | .objectPath => [111]          -- b'o'
  | .signature => [103]           -- b'g'
  | .unixFileDescriptor => [104]  -- b'h'
  | .array inner => 97 :: inner.serialize                       -- b'a'
  | .struct fields => 40 :: SCTS.serializeList fields ++ [41]   -- parens
  | .variant => [118]             -- b'v'
  | .dictEntry key value =>
      -- b'a', open brace, key, value, close brace
      97 :: 123 :: (key.serialize ++ value.serialize) ++ [125]

/-- `for field in fields { v.extend(field.serialize()) }`. -/
def SCTS.serializeList : List SCTS → List Nat
  | [] => []
  | s :: rest => s.serialize ++ SCTS.serializeList rest
end

/-- `HEADER_FIELD_SIGNATURE`: STRUCT of (BYTE, VARIANT). -/
def HEADER_FIELD_SIGNATURE : SCTS :=
  .struct [.byte, .variant]

/-! ## Values (`type_system/types.rs`)

`DBusDouble` carries an `f64`; it is modelled by its raw 8-byte big-endian
bit pattern (`f64::to_be_bytes` / `be_f64` move exactly these bytes).
`DBusString` carries a Rust `String`; it is modelled by its UTF-8 bytes. -/

mutual
inductive TypeV where
  | basic (b : BasicV)
  | container (c : ContainerV)

inductive BasicV where
  | byte (u8 : Nat)
  | boolean (bool : Bool)
  | int16 (i16 : Int)
  | uint16 (u16 : Nat)
  | int32 (i32 : Int)
  | uint32 (u32 : Nat)
  | int64 (i64 : Int)
  | uint64 (u64 : Nat)
  | double (bits : Nat)
  | string (bytes : List Nat)
  | objectPath (bytes : List Nat)
  | signature (vec : List SCTS)
  | unixFileDescriptor

inductive ContainerV where
  | array (item_type : SCTS) (items : List TypeV)
  | struct (fields : List TypeV)
  | variant (v : TypeV)
  | dictEntry (key : SCTS) (value : TypeV)
end

/-! ### `signature()` (`signature.rs`: the `ToSignature` impls)

The Rust method is called `signature()`; `BasicV` has a constructor of that
name, so the embedding calls the method `signatureOf`. -/

mutual
/-- `Type::signature`. -/
def TypeV.signatureOf : TypeV → SCTS
  | .basic b => b.signatureOf
  | .container c => c.signatureOf

/-- `ToSignature for BasicType`. -/
def BasicV.signatureOf : BasicV → SCTS
  | .byte _ => .byte
  | .boolean _ => .boolean
  | .int16 _ => .int16
  | .uint16 _ => .uint16
  | .int32 _ => .int32
  | .uint32 _ => .uint32
  | .int64 _ => .int64
  | .uint64 _ => .uint64
  | .double _ => .double
  | .string _ => .string
  | .objectPath _ => .objectPath
  | .signature _ => .signature
  | .unixFileDescriptor => .unixFileDescriptor

/-- `ToSignature for ContainerType`. -/
def ContainerV.signatureOf : ContainerV → SCTS
  | .array item_type _ => .array item_type
  | .struct fields => .struct (signatureOfList fields)
  | .variant _ => .variant
  | .dictEntry key value => .dictEntry key value.signatureOf

/-- `fields.iter().map(|f| f.signature()).collect()`. -/
def signatureOfList : List TypeV → List SCTS
  | [] => []
  | t :: ts => t.signatureOf :: signatureOfList ts
end

/-! ## Marshalling (`type_system/marshall.rs`; `marshal.rs` is the same
algorithm)

The `Marshaller` is its byte buffer; each `marshall_be` takes the buffer so
far and returns the extended buffer, `none` where the source returns `Err`
(length conversions out of range) or hits a `todo!()` arm (Unix file
descriptors, dict entries / maps). `debug_assert!` sanity checks are
compiled out in release builds and are not modelled. -/

/-- `Marshall<DBusString>::marshall_be`: align 4, u32 length, bytes, NUL. -/
def marshallString (buf : List Nat) (bytes : List Nat) : Option (List Nat) :=
  if bytes.length < 2 ^ 32 then
    some (alignTo buf 4 ++ natToBEBytes 4 bytes.length ++ bytes ++ [0])
  else
    none

/-- `Marshall<DBusSignature>::marshall_be`: reserved u8 length (backfilled;
nothing is written in between, so it collapses to writing the length
directly), signature text, NUL. -/
def marshallSignatureV (buf : List Nat) (vec : List SCTS) : Option (List Nat) :=
  if (SCTS.serializeList vec).length < 2 ^ 8 then
    some (buf ++ [(SCTS.serializeList vec).length] ++ SCTS.serializeList vec ++ [0])
  else
    none

mutual
/-- `Marshall<Type> for Marshaller`. -/
def marshallType (buf : List Nat) : TypeV → Option (List Nat)
  | .basic b => marshallBasic buf b
  | .container c => marshallContainer buf c

/-- `Marshall<BasicType> for Marshaller`, dispatching to the per-type impls. -/
def marshallBasic (buf : List Nat) : BasicV → Option (List Nat)
  | .byte u8 => some (buf ++ [u8])
  | .boolean b => some (alignTo buf 4 ++ natToBEBytes 4 (if b then 1 else 0))
  | .int16 i => some (alignTo buf 2 ++ natToBEBytes 2 (toTwos 16 i))
  | .uint16 n => some (alignTo buf 2 ++ natToBEBytes 2 n)
  | .int32 i => some (alignTo buf 4 ++ natToBEBytes 4 (toTwos 32 i))
  | .uint32 n => some (alignTo buf 4 ++ natToBEBytes 4 n)
  | .int64 i => some (alignTo buf 8 ++ natToBEBytes 8 (toTwos 64 i))
  | .uint64 n => some (alignTo buf 8 ++ natToBEBytes 8 n)
  | .double bits => some (alignTo buf 8 ++ natToBEBytes 8 bits)
  | .string bytes => marshallString buf bytes
  | .objectPath bytes => marshallString buf bytes
  | .signature vec => marshallSignatureV buf vec
  | .unixFileDescriptor => none

/-- `Marshall<ContainerType> for Marshaller`. -/
def marshallContainer (buf : List Nat) : ContainerV → Option (List Nat)
  | .array item_type items =>
      -- `Marshall<DBusArray>`: align 4; reserve 4 length bytes; align to the
      -- element boundary; marshall items; backfill the length by splicing.
      let buf1 := alignTo buf 4
      let idx := buf1.length
      let buf2 := buf1 ++ [0, 0, 0, 0]
      let buf3 := alignTo buf2 item_type.marshalling_boundary
      match marshallList buf3 items with
      | none => none
      | some buf4 =>
          if buf4.length - buf3.length < 2 ^ 32 then
            some (spliceAt buf4 idx (natToBEBytes 4 (buf4.length - buf3.length)))
          else
            none
  | .struct fields =>
      -- `Marshall<DBusStruct>`: align 8, then the fields in order.
      marshallList (alignTo buf 8) fields
  | .variant v =>
      -- `Marshall<DBusVariant>`: the inner value's signature as a
      -- `DBusSignature`, then the inner value.
      match marshallSignatureV buf [v.signatureOf] with
      | none => none
      | some buf1 => marshallType buf1 v
  | .dictEntry _ _ => none

/-- Marshalling a sequence of values into one buffer (the item loops of the
array and struct impls). -/
def marshallList (buf : List Nat) : List TypeV → Option (List Nat)
  | [] => some buf
  | t :: ts =>
      match marshallType buf t with
      | none => none
      | some buf' => marshallList buf' ts
end

/-! ## Unmarshalling (`type_system/unmarshall.rs`, the `&[u8]` impls)

nom parsers are modelled directly on `List Nat`: a parser returns
`some (remaining, value)` or `none` (both `nom::Err` and a `todo!()` /
slice-index panic collapse to `none`). -/

/-- `nom::bytes::complete::take(w)`. -/
def takeN (w : Nat) (i : List Nat) : Option (List Nat × List Nat) :=
  if w ≤ i.length then some (i.drop w, i.take w) else none

/-- `be_u8` / `be_u16` / `be_u32` / `be_u64`: take `w` bytes, big-endian. -/
def parseBE (w : Nat) (i : List Nat) : Option (List Nat × Nat) :=
  match takeN w i with
  | none => none
  | some (rest, bs) => some (rest, beVal bs)

/-- `le_u32`: take 4 bytes, little-endian. -/
def parseLE32 (i : List Nat) : Option (List Nat × Nat) :=
  match takeN 4 i with
  | none => none
  | some (rest, bs) => some (rest, leVal bs)

/-- `nom::bytes::complete::tag(t)`. -/
def tagP (t : List Nat) (i : List Nat) : Option (List Nat) :=
  if t.length ≤ i.length ∧ i.take t.length = t then some (i.drop t.length)
  else none

/-- UTF-8 validity (`std::str::from_utf8` succeeds), per RFC 3629:
ASCII, and sequences of two, three or four bytes with the usual
continuation and range restrictions (no overlongs, no surrogates,
maximum U+10FFFF). -/
def utf8Cont (c : Nat) : Bool := 0x80 ≤ c ∧ c ≤ 0xBF

def utf8Valid : List Nat → Bool
  | [] => true
  | b :: rest =>
      if b ≤ 0x7F then utf8Valid rest
      else if 0xC2 ≤ b ∧ b ≤ 0xDF then
        match rest with
        | c1 :: rest' => utf8Cont c1 && utf8Valid rest'
        | [] => false
      else if 0xE0 ≤ b ∧ b ≤ 0xEF then
        match rest with
        | c1 :: c2 :: rest' =>
            (if b = 0xE0 then decide (0xA0 ≤ c1 ∧ c1 ≤ 0xBF)
             else if b = 0xED then decide (0x80 ≤ c1 ∧ c1 ≤ 0x9F)
             else utf8Cont c1) && utf8Cont c2 && utf8Valid rest'
        | _ => false
      else if 0xF0 ≤ b ∧ b ≤ 0xF4 then
        match rest with
        | c1 :: c2 :: c3 :: rest' =>
            (if b = 0xF0 then decide (0x90 ≤ c1 ∧ c1 ≤ 0xBF)
             else if b = 0xF4 then decide (0x80 ≤ c1 ∧ c1 ≤ 0x8F)
             else utf8Cont c1) && utf8Cont c2 && utf8Cont c3 && utf8Valid rest'
        | _ => false
      else false

/-- `DBusByte::unmarshall_be`. -/
def unmarshallDBusByte (i : List Nat) : Option (List Nat × BasicV) :=
  match i with
  | [] => none
  | b :: rest => some (rest, .byte b)

/-- `DBusBoolean::unmarshall_be`: a u32, only 0 or 1 are valid. -/
def unmarshallDBusBoolean (i : List Nat) : Option (List Nat × BasicV) :=
  match parseBE 4 i with
  | none => none
  | some (rest, 0) => some (rest, .boolean false)
  | some (rest, 1) => some (rest, .boolean true)
  | some _ => none

/-- `DBusInt16::unmarshall_be`. -/
def unmarshallDBusInt16 (i : List Nat) : Option (List Nat × BasicV) :=
  match parseBE 2 i with
  | none => none
  | some (rest, n) => some (rest, .int16 (fromTwos 16 n))

/-- `DBusUint16::unmarshall_be`. -/
def unmarshallDBusUint16 (i : List Nat) : Option (List Nat × BasicV) :=
  match parseBE 2 i with
  | none => none
  | some (rest, n) => some (rest, .uint16 n)

/-- `DBusInt32::unmarshall_be`. -/
def unmarshallDBusInt32 (i : List Nat) : Option (List Nat × BasicV) :=
  match parseBE 4 i with
  | none => none
  | some (rest, n) => some (rest, .int32 (fromTwos 32 n))

/-- `DBusUint32::unmarshall_be`. -/
def unmarshallDBusUint32 (i : List Nat) : Option (List Nat × BasicV) :=
  match parseBE 4 i with
  | none => none
  | some (rest, n) => some (rest, .uint32 n)

/-- `DBusInt64::unmarshall_be`. -/
def unmarshallDBusInt64 (i : List Nat) : Option (List Nat × BasicV) :=
  match parseBE 8 i with
  | none => none
  | some (rest, n) => some (rest, .int64 (fromTwos 64 n))

/-- `DBusUint64::unmarshall_be`. -/
def unmarshallDBusUint64 (i : List Nat) : Option (List Nat × BasicV) :=
  match parseBE 8 i with
  | none => none
  | some (rest, n) => some (rest, .uint64 n)

/-- `DBusDouble::unmarshall_be` (`be_f64`: 8 bytes moved as the raw bit
pattern). -/
def unmarshallDBusDouble (i : List Nat) : Option (List Nat × BasicV) :=
  match parseBE 8 i with
  | none => none
  | some (rest, n) => some (rest, .double n)

/-- `DBusString::unmarshall_be`: u32 length, UTF-8 bytes, trailing NUL. -/
def unmarshallDBusString (i : List Nat) : Option (List Nat × BasicV) :=
  match parseBE 4 i with
  | none => none
  | some (i1, len) =>
      match takeN len i1 with
      | none => none
      | some (i2, bytes) =>
          if utf8Valid bytes then
            match tagP [0] i2 with
            | none => none
            | some i3 => some (i3, .string bytes)
          else none

/-- `unmarshall_basic_type` inside `DBusSignature::unmarshall_be`; the
wildcard arm (including `g` and `v`) is `todo!()`. -/
def unmarshallBasicCode : Nat → Option SCTS
  | 121 => some .byte                -- b'y'
  | 98 => some .boolean              -- b'b'
  | 110 => some .int16               -- b'n'
  | 113 => some .uint16              -- b'q'
  | 105 => some .int32               -- b'i'
  | 117 => some .uint32              -- b'u'
  | 120 => some .int64               -- b'x'
  | 116 => some .uint64              -- b't'
  | 100 => some .double              -- b'd'
  | 115 => some .string              -- b's'
  | 111 => some .objectPath          -- b'o'
  | 104 => some .unixFileDescriptor  -- b'h'
  | _ => none

/-- The `while pos < length` loop of `DBusSignature::unmarshall_be`:
`n` iterations remain, reading `i[pos]` (an out-of-bounds index panics,
modelled `none`); the `a` / `(` / `\x7b` arms are `todo!()`. -/
def sigLoop (i : List Nat) : Nat → Nat → Option (List SCTS)
  | _, 0 => some []
  | pos, n + 1 =>
      match i.get? pos with
      | none => none
      | some b =>
          if b = 97 ∨ b = 40 ∨ b = 123 then none  -- b'a', b'(', open brace
          else
            match unmarshallBasicCode b with
            | none => none
            | some s =>
                match sigLoop i (pos + 1) n with
                | none => none
                | some v => some (s :: v)

/-- `DBusSignature::unmarshall_be`: u8 length, then the loop over codes.
Note the returned remaining input is not advanced past the codes, and no
trailing NUL is checked. -/
def unmarshallDBusSignature (i : List Nat) : Option (List Nat × BasicV) :=
  match i with
  | [] => none
  | len :: rest =>
      match sigLoop rest 0 len with
      | none => none
      | some v => some (rest, .signature v)

/-- One iteration of the array element loops: `&i[pos..]` (panics when
`pos` is past the end, modelled `none`), decoded and pushed as a
`BasicType`. The sub-parser's remaining input is discarded (`let (_, b)`). -/
def arrayDecodeAt (dec : List Nat → Option (List Nat × BasicV))
    (i : List Nat) (pos : Nat) : Option TypeV :=
  if pos ≤ i.length then
    match dec (i.drop pos) with
    | none => none
    | some (_, b) => some (.basic b)
  else none

/-- The positions visited by `(0..L).step_by(step)` (the byte case uses
`0..length`, i.e. step 1). -/
def stepPositions (L step : Nat) : List Nat :=
  (List.range ((L + step - 1) / step)).map (· * step)

/-- The element loop of `DBusArray::unmarshall_be`: decode one element per
position (each by peeking at `&i[pos..]`), collecting the values. -/
def decodeAtPositions (dec : List Nat → Option (List Nat × BasicV))
    (i : List Nat) : List Nat → Option (List TypeV)
  | [] => some []
  | pos :: ps =>
      match arrayDecodeAt dec i pos with
      | none => none
      | some v =>
          match decodeAtPositions dec i ps with
          | none => none
          | some vs => some (v :: vs)

/-- The per-element-kind sub-parser used by the match arms of
`DBusArray::unmarshall_be`; `none` for the `todo!()` arms (object paths,
signatures, Unix file descriptors, and all container element kinds). -/
def elemDecoder : SCTS → Option (List Nat → Option (List Nat × BasicV))
  | .byte => some unmarshallDBusByte
  | .boolean => some unmarshallDBusBoolean
  | .int16 => some unmarshallDBusInt16
  | .uint16 => some unmarshallDBusUint16
  | .int32 => some unmarshallDBusInt32
  | .uint32 => some unmarshallDBusUint32
  | .int64 => some unmarshallDBusInt64
  | .uint64 => some unmarshallDBusUint64
  | .double => some unmarshallDBusDouble
  | .string => some unmarshallDBusString
  | _ => none

/-- The loop stride of `DBusArray::unmarshall_be`: the byte arm iterates
`0..length` (stride 1); every other arm uses `step_by(size)`. -/
def elemStep : SCTS → Nat
  | .byte => 1
  | t => t.marshalling_boundary

/-- `DBusArray::unmarshall_be(i, item_type)`: u32 byte length; when the
element boundary exceeds 4, `4 % size` padding null bytes are expected;
the elements are then decoded by indexing at fixed strides, without
consuming them: the returned remaining input is `i` positioned at the
first element. Element kinds other than the ten basic ones are `todo!()`. -/
def unmarshallDBusArray (i : List Nat) (item_type : SCTS) :
    Option (List Nat × ContainerV) :=
  match parseBE 4 i with
  | none => none
  | some (i1, L) =>
      let size := item_type.marshalling_boundary
      let i2opt := if 4 < size then tagP (List.replicate (4 % size) 0) i1 else some i1
      match i2opt with
      | none => none
      | some i2 =>
          match elemDecoder item_type with
          | none => none
          | some dec =>
              match decodeAtPositions dec i2 (stepPositions L (elemStep item_type)) with
              | none => none
              | some items => some (i2, .array item_type items)

/-- Decoding one value under a single-complete-type signature, dispatching
to the per-type `unmarshall_be` impls of `unmarshall.rs`; object paths,
Unix file descriptors, structs, variants and dict entries are `todo!()`. -/
def unmarshallTypeBySig (s : SCTS) (i : List Nat) : Option (List Nat × TypeV) :=
  match s with
  | .byte => (unmarshallDBusByte i).map (fun r => (r.1, .basic r.2))
  | .boolean => (unmarshallDBusBoolean i).map (fun r => (r.1, .basic r.2))
  | .int16 => (unmarshallDBusInt16 i).map (fun r => (r.1, .basic r.2))
  | .uint16 => (unmarshallDBusUint16 i).map (fun r => (r.1, .basic r.2))
  | .int32 => (unmarshallDBusInt32 i).map (fun r => (r.1, .basic r.2))
  | .uint32 => (unmarshallDBusUint32 i).map (fun r => (r.1, .basic r.2))
  | .int64 => (unmarshallDBusInt64 i).map (fun r => (r.1, .basic r.2))
  | .uint64 => (unmarshallDBusUint64 i).map (fun r => (r.1, .basic r.2))
  | .double => (unmarshallDBusDouble i).map (fun r => (r.1, .basic r.2))
  | .string => (unmarshallDBusString i).map (fun r => (r.1, .basic r.2))
  | .signature => (unmarshallDBusSignature i).map (fun r => (r.1, .basic r.2))
  | .array inner => (unmarshallDBusArray i inner).map (fun r => (r.1, .container r.2))
  | .objectPath => none
  | .unixFileDescriptor => none
  | .struct _ => none
  | .variant => none
  | .dictEntry _ _ => none

/-! ## Message decode (`unmarshall.rs` lines 205-252, 549-569) -/

/-- `type_system::Endianness`. -/
inductive Endianness where
  | bigEndian
  | littleEndian
deriving DecidableEq

/-- `Endianness::ascii_code`. -/
def Endianness.ascii_code : Endianness → Nat
  | .bigEndian => 66     -- b'B'
  | .littleEndian => 108 -- b'l'

/-- `Endianness::unmarshall`: `B` or `l`, anything else fails. -/
def unmarshallEndianness (i : List Nat) : Option (List Nat × Endianness) :=
  match i with
  | [] => none
  | b :: rest =>
      if b = 66 then some (rest, .bigEndian)        -- b'B'
      else if b = 108 then some (rest, .littleEndian)  -- b'l'
      else none

/-- `message_protocol::MessageType`. -/
inductive MessageType where
  | methodCall
  | methodReturn
  | error
  | signal
deriving DecidableEq

/-- `MessageType::decimal_value`. -/
def MessageType.decimal_value : MessageType → Nat
  | .methodCall => 1
  | .methodReturn => 2
  | .error => 3
  | .signal => 4

/-- `MessageType::unmarshall`. -/
def unmarshallMessageType (i : List Nat) : Option (List Nat × MessageType) :=
  match i with
  | [] => none
  | 1 :: rest => some (rest, .methodCall)
  | 2 :: rest => some (rest, .methodReturn)
  | 3 :: rest => some (rest, .error)
  | 4 :: rest => some (rest, .signal)
  | _ => none

/-- `crate::MAJOR_PROTOCOL_VERSION`. -/
def MAJOR_PROTOCOL_VERSION : Nat := 1

/-- The `parse_u32` closure selected from the endianness byte. -/
def parseU32For : Endianness → List Nat → Option (List Nat × Nat)
  | .bigEndian => parseBE 4
  | .littleEndian => parseLE32

/-- The fixed-header prefix of `unmarshall_message_parse` (endianness,
message type, flag bits, major protocol version tag, body length, serial). -/
structure FixedHeader where
  endianness : Endianness
  message_type : MessageType
  flag_no_reply_expected : Bool
  flag_no_auto_start : Bool
  flag_allow_interactive_authorization : Bool
  length_in_bytes_of_message_body : Nat
  serial : Nat
deriving DecidableEq

/-- Lines 214-239 of `unmarshall_message_parse`: decode the 12 fixed header
bytes, selecting the u32 byte order from the endianness byte. -/
def unmarshallFixedHeader (i : List Nat) : Option (List Nat × FixedHeader) :=
  match unmarshallEndianness i with
  | none => none
  | some (i1, endianness) =>
      match unmarshallMessageType i1 with
      | none => none
      | some (i2, message_type) =>
          match i2 with
          | [] => none
          | flag_bitfield :: i3 =>
              match tagP [MAJOR_PROTOCOL_VERSION] i3 with
              | none => none
              | some i4 =>
                  match parseU32For endianness i4 with
                  | none => none
                  | some (i5, body_len) =>
                      match parseU32For endianness i5 with
                      | none => none
                      | some (i6, serial) =>
                          some (i6,
                            { endianness := endianness
                              message_type := message_type
                              flag_no_reply_expected := flag_bitfield &&& 0x1 = 0x1
                              flag_no_auto_start := flag_bitfield &&& 0x2 = 0x2
                              flag_allow_interactive_authorization :=
                                flag_bitfield &&& 0x4 = 0x4
                              length_in_bytes_of_message_body := body_len
                              serial := serial })

/-- `unmarshall_message_parse`. After the fixed header, the header-field
array is decoded only in the big-endian branch (the little-endian branch is
`todo!()`), and every surviving path then hits `todo!()` before a `Message`
is built — the nominal result is modelled as `Unit` and never produced. -/
def unmarshallMessageParse (i : List Nat) : Option (List Nat × Unit) :=
  match unmarshallFixedHeader i with
  | none => none
  | some (i1, fh) =>
      match fh.endianness with
      | .bigEndian =>
          match unmarshallDBusArray i1 HEADER_FIELD_SIGNATURE with
          | none => none
          | some _ => none
      | .littleEndian => none

/-- `unmarshall_message`: `all_consuming(unmarshall_message_parse)`. -/
def unmarshallMessage (message : List Nat) : Option Unit :=
  match unmarshallMessageParse message with
  | none => none
  | some (rem, m) => if rem = [] then some m else none

/-! ## Header fields (`message_protocol.rs` / `header/header_field.rs`)

String and object-path payloads are their UTF-8 bytes; `ReplySerial` and
`UnixFds` carry a u32; `Signature` carries the parsed signature list. -/

inductive HeaderField where
  | path (bytes : List Nat)
  | interface (bytes : List Nat)
  | member (bytes : List Nat)
  | errorName (bytes : List Nat)
  | replySerial (u32 : Nat)
  | destination (bytes : List Nat)
  | sender (bytes : List Nat)
  | signature (vec : List SCTS)
  | unixFds (u32 : Nat)

/-- `HeaderField::decimal_code`. -/
def HeaderField.decimal_code : HeaderField → Nat
  | .path _ => 1
  | .interface _ => 2
  | .member _ => 3
  | .errorName _ => 4
  | .replySerial _ => 5
  | .destination _ => 6
  | .sender _ => 7
  | .signature _ => 8
  | .unixFds _ => 9

/-- `HeaderField::inner_into_variant`: the payload wrapped in a
`DBusVariant`. -/
def HeaderField.innerValue : HeaderField → TypeV
  | .path bytes => .basic (.objectPath bytes)
  | .interface bytes => .basic (.string bytes)
  | .member bytes => .basic (.string bytes)
  | .errorName bytes => .basic (.string bytes)
  | .replySerial n => .basic (.uint32 n)
  | .destination bytes => .basic (.string bytes)
  | .sender bytes => .basic (.string bytes)
  | .signature vec => .basic (.signature vec)
  | .unixFds n => .basic (.uint32 n)

/-- One item of the header-field array: `Struct(Byte code, Variant inner)`
(`prepare_header_fields` in `message_protocol.rs`, and the same construction
inline in `Header::marshall`). -/
def headerFieldItem (hf : HeaderField) : TypeV :=
  .container (.struct [.basic (.byte hf.decimal_code),
                       .container (.variant hf.innerValue)])

/-! ## `Message::marshal_be` (`message_protocol.rs` lines 112-206) -/

/-- `message_protocol::MessageTypeParam`. -/
inductive MessageTypeParam where
  | methodCall (path : List Nat) (interface : Option (List Nat)) (member : List Nat)
  | methodReturn
  | error
  | signal (path : List Nat) (interface : List Nat) (member : List Nat)

/-- `MessageTypeParam::message_type`. -/
def MessageTypeParam.message_type : MessageTypeParam → MessageType
  | .methodCall .. => .methodCall
  | .methodReturn => .methodReturn
  | .error => .error
  | .signal .. => .signal

/-- `message_protocol::Message` (body modelled by its `arguments`). -/
structure MessageP where
  flag_no_reply_expected : Bool
  flag_no_auto_start : Bool
  flag_allow_interactive_authorization : Bool
  serial : Nat
  message_type_param : MessageTypeParam
  destination : Option (List Nat)
  body : List TypeV

/-- The flags byte built by bit-OR of the three flag bits. -/
def flagsByte (noReply noAutoStart allowInteractive : Bool) : Nat :=
  ((if noReply then 0x1 else 0) ||| (if noAutoStart then 0x2 else 0)) |||
    (if allowInteractive then 0x4 else 0)

/-- The header-field list assembled by `Message::marshal_be`: always the
body `Signature`, then `Destination` when present, then the
message-type-specific fields (only `MethodCall` is implemented; the other
message types hit `todo!()`). -/
def messageHeaderFields (m : MessageP) : Option (List HeaderField) :=
  let base := [HeaderField.signature (signatureOfList m.body)] ++
    (match m.destination with
     | some d => [HeaderField.destination d]
     | none => [])
  match m.message_type_param with
  | .methodCall path interface member =>
      some (base ++ [HeaderField.path path, HeaderField.member member] ++
        (match interface with
         | some itf => [HeaderField.interface itf]
         | none => []))
  | _ => none

/-- `Message::marshal_be`: body marshalled by one encoder from offset 0;
fixed 12 header bytes; the header-field array marshalled continuing in the
same buffer; null padding to an 8-byte boundary; body appended. -/
def MessageP.marshal_be (m : MessageP) : Option (List Nat) :=
  match marshallList [] m.body with
  | none => none
  | some marshalled_body =>
      if marshalled_body.length < 2 ^ 32 then
        let header12 :=
          [66, m.message_type_param.message_type.decimal_value,
           flagsByte m.flag_no_reply_expected m.flag_no_auto_start
             m.flag_allow_interactive_authorization,
           MAJOR_PROTOCOL_VERSION] ++
          natToBEBytes 4 marshalled_body.length ++ natToBEBytes 4 m.serial
        match messageHeaderFields m with
        | none => none
        | some fields =>
            match marshallContainer header12
                (.array HEADER_FIELD_SIGNATURE (fields.map headerFieldItem)) with
            | none => none
            | some hdr => some (alignTo hdr 8 ++ marshalled_body)
      else none

/-! ## `Header::marshall` and `Body::marshall_be`
(`message_protocol/header.rs`, `message_protocol/body.rs`) -/

/-- `header::HeaderFlag`. -/
inductive HeaderFlag where
  | noReplyExpected
  | noAutoStart
  | allowInteractiveAuthorization
deriving DecidableEq

/-- `HeaderFlag::hex_value`. -/
def HeaderFlag.hex_value : HeaderFlag → Nat
  | .noReplyExpected => 0x1
  | .noAutoStart => 0x2
  | .allowInteractiveAuthorization => 0x4

/-- `header::Header` (the flag `HashSet` modelled as a list; the flags byte
is the bit-OR over it, which is order-independent). -/
structure HeaderS where
  endianness : Endianness
  message_type : MessageType
  flags : List HeaderFlag
  major_protocol_version : Nat
  length_in_bytes_of_message_body : Nat
  serial : Nat
  header_fields : List HeaderField

/-- Modelled from the spec: the inherent `DBusArray::marshall_be()` called
by `Header::marshall` is not among the sources (only this call site is);
per §4.3 it emits the array into a fresh buffer from offset 0, which is the
encoder's array routine started on an empty buffer. -/
def dbusArrayMarshallBE (item_type : SCTS) (items : List TypeV) :
    Option (List Nat) :=
  marshallContainer [] (.array item_type items)

/-- `Header::marshall`: the 12 fixed bytes, the header-field array, then
null padding to an 8-byte boundary. The source `assert_eq!`s big-endian
before the two u32 writes; a little-endian header is modelled `none`. -/
def HeaderS.marshall (h : HeaderS) : Option (List Nat) :=
  if h.endianness = .bigEndian then
    let flags := h.flags.foldl (fun acc f => acc ||| f.hex_value) 0
    let v := [h.endianness.ascii_code, h.message_type.decimal_value, flags,
              MAJOR_PROTOCOL_VERSION] ++
             natToBEBytes 4 h.length_in_bytes_of_message_body ++
             natToBEBytes 4 h.serial
    match dbusArrayMarshallBE HEADER_FIELD_SIGNATURE
        (h.header_fields.map headerFieldItem) with
    | none => none
    | some fieldBytes => some (alignTo (v ++ fieldBytes) 8)
  else none

/-- Modelled from the spec: the inherent `Type::marshall_be()` called by
`Body::marshall_be` is not among the sources (only this call site is); per
§4.3 it emits one value into a fresh buffer from offset 0. -/
def typeMarshallBE (t : TypeV) : Option (List Nat) :=
  marshallType [] t

/-- `Body::marshall_be`: each argument marshalled separately and the
results concatenated. -/
def bodyMarshallBE : List TypeV → Option (List Nat)
  | [] => some []
  | a :: rest =>
      match typeMarshallBE a with
      | none => none
      | some bs =>
          match bodyMarshallBE rest with
          | none => none
          | some bss => some (bs ++ bss)

/-! ## Connection (`connection.rs`) -/

/-- `Connection::marshall_message` acting on the serial counter (the only
connection state it touches). `body.marshall_be()?` runs before the
increment; `self.serial += 1` is u32 arithmetic, wrapping modulo `2^32`
(release-profile semantics — the source has no overflow check). Returns the
new counter value together with the marshalled message (`none` on error). -/
def marshall_message (serial : Nat) (message_type : MessageType)
    (flags : List HeaderFlag) (header_fields : List HeaderField)
    (body : List TypeV) : Nat × Option (List Nat) :=
  match bodyMarshallBE body with
  | none => (serial, none)
  | some marshalled_body =>
      let serial' := (serial + 1) % 2 ^ 32
      if marshalled_body.length < 2 ^ 32 then
        match HeaderS.marshall
            { endianness := .bigEndian
              message_type := message_type
              flags := flags
              major_protocol_version := MAJOR_PROTOCOL_VERSION
              length_in_bytes_of_message_body := marshalled_body.length
              serial := serial'
              header_fields := header_fields } with
        | none => (serial', none)
        | some marshalled_header => (serial', some (marshalled_header ++ marshalled_body))
      else (serial', none)

/-- The serial counter of a fresh connection (`Connection::new`). -/
def newConnectionSerial : Nat := 0

/-- The `MethodCall` shape used by `Connection::say_hello` /
`Connection::call_method` (destination, path, interface, member, body;
the string payloads are their UTF-8 bytes). -/
structure MethodCallC where
  destination : List Nat
  path : List Nat
  interface : Option (List Nat)
  member : List Nat
  body : List TypeV

/-- The `MethodCall` constructed by `Connection::say_hello`, with the
string literals exactly as they appear in the source. -/
def sayHelloMethodCall : MethodCallC :=
  { destination := asciiBytes "org.freedesktop.DBus"
    path := asciiBytes "org/freedesktop/DBus"
    interface := some (asciiBytes "org.freedesktop.DBus")
    member := asciiBytes "Hello"
    body := [] }

/-- The message type `Connection::call_method` (the function `say_hello`
sends its call through) passes to `marshall_message`. -/
def callMethodMessageType : MessageType := .methodCall

/-! ## Decoder input wrapper (`type_system/unmarshal/input.rs`) -/

/-- `unmarshal::input::I`: a byte slice plus its alignment relative to the
(8-aligned) start of the original data. -/
structure I where
  data : List Nat
  alignment : Nat
deriving DecidableEq

namespace I

/-- `I::new`. -/
def new (data : List Nat) : I :=
  { data := data, alignment := 0 }

/-- `nom::Slice<RangeFrom<usize>> for I`: drop `n` leading bytes and add
`n` to the alignment modulo 8. -/
def sliceFrom (i : I) (n : Nat) : I :=
  { data := i.data.drop n, alignment := (i.alignment + n) % 8 }

/-- `InputTake::take for I`: the first `n` bytes, alignment unchanged. -/
def take (i : I) (n : Nat) : I :=
  { data := i.data.take n, alignment := i.alignment }

/-- `InputTake::take_split for I`: `(suffix, prefix)`; the suffix's
alignment advances by `n` modulo 8, the prefix keeps the alignment. -/
def take_split (i : I) (n : Nat) : I × I :=
  ({ data := i.data.drop n, alignment := (i.alignment + n) % 8 },
   { data := i.data.take n, alignment := i.alignment })

/-- `parsers::complete::skip_null_byte` on `I`: `verify(be_u8, == 0)` —
consume one byte, which must be zero. -/
def skipNullByte (i : I) : Option I :=
  match i.data with
  | [] => none
  | b :: _ => if b = 0 then some (i.sliceFrom 1) else none

/-- The `while i.alignment != 0` loop of `I::advance_to_boundary`, with
explicit fuel; `advance_to_boundary` runs it with fuel 8, which is exact
whenever `alignment < 8` (the field's documented range). The `boundary`
argument of the source only feeds a `debug_assert!` and does not influence
the loop. -/
def advanceLoop : Nat → I → Option I
  | 0, i => if i.alignment = 0 then some i else none
  | fuel + 1, i =>
      if i.alignment = 0 then some i
      else
        match skipNullByte i with
        | none => none
        | some i' => advanceLoop fuel i'

/-- `I::advance_to_boundary`. -/
def advance_to_boundary (i : I) (_boundary : Nat) : Option I :=
  advanceLoop 8 i

end I

/-- The documented invariant of `I`: the wrapped slice is a contiguous slice
of the original 8-aligned data starting at some offset `k`, and `alignment`
is `k` modulo 8. -/
def ReprOf (O : List Nat) (i : I) : Prop :=
  ∃ k, i.alignment = k % 8 ∧ k + i.data.length ≤ O.length ∧
    i.data = (O.drop k).take i.data.length

/-! ## Predicates delimiting the decoder-implemented fragment

These serve the statements of the round-trip theorems: the value ranges of
the Rust payload types, and the kinds for which `unmarshall.rs` has a
non-`todo!()` decoder. -/

/-- DecidableEq instance for SCTS is not derivable (nested inductive);
equality with a concrete constructor is decided structurally instead. -/
def sctsKindEq : SCTS → SCTS → Bool
  | .byte, .byte => true
  | .boolean, .boolean => true
  | .int16, .int16 => true
  | .uint16, .uint16 => true
  | .int32, .int32 => true
  | .uint32, .uint32 => true
  | .int64, .int64 => true
  | .uint64, .uint64 => true
  | .double, .double => true
  | .string, .string => true
  | .objectPath, .objectPath => true
  | .signature, .signature => true
  | .unixFileDescriptor, .unixFileDescriptor => true
  | .variant, .variant => true
  | _, _ => false

/-- Value is in range for its Rust payload type (`u8`, `i16`, … bounds). -/
def basicValueOk : BasicV → Bool
  | .byte n => n < 2 ^ 8
  | .boolean _ => true
  | .int16 i => -(2 ^ 15) ≤ i ∧ i < 2 ^ 15
  | .uint16 n => n < 2 ^ 16
  | .int32 i => -(2 ^ 31) ≤ i ∧ i < 2 ^ 31
  | .uint32 n => n < 2 ^ 32
  | .int64 i => -(2 ^ 63) ≤ i ∧ i < 2 ^ 63
  | .uint64 n => n < 2 ^ 64
  | .double bits => bits < 2 ^ 64
  | .string bytes => utf8Valid bytes && bytes.length < 2 ^ 32
  | .objectPath _ => false
  | .signature _ => false
  | .unixFileDescriptor => false

/-- Signature element codes the signature parser can read back
(the twelve basic codes; `g` and `v` are `todo!()` in the parser). -/
def sigElemOk : SCTS → Bool
  | .byte | .boolean | .int16 | .uint16 | .int32 | .uint32
  | .int64 | .uint64 | .double | .string | .objectPath
  | .unixFileDescriptor => true
  | _ => false

/-- The fixed wire size of a fixed-width basic element kind (the kinds the
array decoder steps through correctly); `none` for everything else. -/
def fixedElemSize : SCTS → Option Nat
  | .byte => some 1
  | .boolean => some 4
  | .int16 => some 2
  | .uint16 => some 2
  | .int32 => some 4
  | .uint32 => some 4
  | .int64 => some 8
  | .uint64 => some 8
  | .double => some 8
  | _ => none

/-- An array item matches the element kind `t` and is in range. -/
def itemOk (t : SCTS) : TypeV → Bool
  | .basic b => sctsKindEq t b.signatureOf && basicValueOk b
  | .container _ => false

/-- The wire bytes of one fixed-width element at an aligned offset. -/
def elemBytes : BasicV → List Nat
  | .byte n => [n]
  | .boolean b => natToBEBytes 4 (if b then 1 else 0)
  | .int16 i => natToBEBytes 2 (toTwos 16 i)
  | .uint16 n => natToBEBytes 2 n
  | .int32 i => natToBEBytes 4 (toTwos 32 i)
  | .uint32 n => natToBEBytes 4 n
  | .int64 i => natToBEBytes 8 (toTwos 64 i)
  | .uint64 n => natToBEBytes 8 n
  | .double n => natToBEBytes 8 n
  | .string _ => []
  | .objectPath _ => []
  | .signature _ => []
  | .unixFileDescriptor => []

/-- `elemBytes` lifted to `TypeV` (containers contribute nothing; they are
excluded wherever this is used). -/
def itemBytes : TypeV → List Nat
  | .basic b => elemBytes b
  | .container _ => []

/-- The fragment of values on which both directions of the codec are
implemented: in-range fixed-width basics, valid-UTF-8 strings, signatures
over parser-supported basic codes, and arrays of fixed-width basic
elements whose byte length fits in a u32. -/
def fragmentB : TypeV → Bool
  | .basic (.signature vec) => vec.all sigElemOk && vec.length < 2 ^ 8
  | .basic b => basicValueOk b
  | .container (.array t items) =>
      match fixedElemSize t with
      | none => false
      | some size => items.all (itemOk t) && items.length * size < 2 ^ 32
  | .container _ => false


/-! ## Byte-level lemmas -/

theorem natToBEBytes_length (w n : Nat) : (natToBEBytes w n).length = w := by
  induction w generalizing n with
  | zero => rfl
  | succ w ih => simp [natToBEBytes, ih]

theorem beVal_append_singleton (xs : List Nat) (b : Nat) :
    beVal (xs ++ [b]) = beVal xs * 256 + b := by
  simp [beVal, List.foldl_append]

theorem beVal_natToBEBytes (w n : Nat) :
    beVal (natToBEBytes w n) = n % 256 ^ w := by
  induction w generalizing n with
  | zero => simp [natToBEBytes, beVal, Nat.mod_one]
  | succ w ih =>
      rw [natToBEBytes, beVal_append_singleton, ih]
      have h2 : (256 : Nat) ^ (w + 1) = 256 * 256 ^ w := by ring
      rw [h2, Nat.mod_mul]
      ring

theorem takeN_exact (w : Nat) (xs rest : List Nat) (h : xs.length = w) :
    takeN w (xs ++ rest) = some (rest, xs) := by
  subst h
  unfold takeN
  rw [if_pos (by simp)]
  rw [List.take_left, List.drop_left]

theorem parseBE_exact (w : Nat) (xs rest : List Nat) (h : xs.length = w) :
    parseBE w (xs ++ rest) = some (rest, beVal xs) := by
  unfold parseBE
  rw [takeN_exact w xs rest h]

theorem parseBE_natToBEBytes (w n : Nat) (rest : List Nat) (h : n < 256 ^ w) :
    parseBE w (natToBEBytes w n ++ rest) = some (rest, n) := by
  rw [parseBE_exact w _ rest (natToBEBytes_length w n), beVal_natToBEBytes,
    Nat.mod_eq_of_lt h]

theorem toTwos_lt (w : Nat) (i : Int) : toTwos w i < 2 ^ w := by
  unfold toTwos
  have h2 : (0 : Int) < 2 ^ w := by positivity
  have h3 := Int.emod_lt_of_pos i h2
  have h4 := Int.emod_nonneg i (ne_of_gt h2)
  have h5 : ((2 ^ w : Nat) : Int) = (2 : Int) ^ w := by push_cast; ring
  omega

theorem fromTwos_toTwos (w : Nat) (i : Int) (hw : 0 < w)
    (h1 : -(2 ^ (w - 1)) ≤ i) (h2 : i < 2 ^ (w - 1)) :
    fromTwos w (toTwos w i) = i := by
  unfold fromTwos toTwos
  obtain ⟨w', rfl⟩ : ∃ w', w = w' + 1 := ⟨w - 1, by omega⟩
  simp only [Nat.add_sub_cancel] at h1 h2 ⊢
  have hQ : ((2 ^ w' : Nat) : Int) = (2 : Int) ^ w' := by push_cast; ring
  have hP : ((2 ^ (w' + 1) : Nat) : Int) = (2 : Int) ^ (w' + 1) := by
    push_cast; ring
  have hPQ : ((2 : Int) ^ (w' + 1)) = 2 * 2 ^ w' := by ring
  have hQpos : (0 : Int) < 2 ^ w' := by positivity
  rcases le_or_lt 0 i with hpos | hneg
  · have hm : i % ((2 : Int) ^ (w' + 1)) = i :=
      Int.emod_eq_of_lt hpos (by omega)
    rw [hm, if_pos (by omega)]
    omega
  · have hshift : (i + 2 ^ (w' + 1)) % ((2 : Int) ^ (w' + 1)) =
        i % ((2 : Int) ^ (w' + 1)) := by
      have h := Int.add_mul_emod_self_left (a := i) (b := (2 : Int) ^ (w' + 1))
        (c := 1)
      simp only [mul_one] at h
      exact h
    have hm : i % ((2 : Int) ^ (w' + 1)) = i + 2 ^ (w' + 1) := by
      rw [← hshift]
      exact Int.emod_eq_of_lt (by omega) (by omega)
    rw [hm, if_neg (by omega)]
    omega

/-! ## Alignment and splice lemmas -/

theorem alignPad_lt (n a : Nat) (h : 0 < a) : alignPad n a < a := by
  unfold alignPad
  rw [if_neg (by omega)]
  exact Nat.mod_lt _ h

theorem alignTo_length (buf : List Nat) (a : Nat) :
    (alignTo buf a).length = buf.length + alignPad buf.length a := by
  simp [alignTo]

theorem alignPad_mod (n a : Nat) (h : 0 < a) : (n + alignPad n a) % a = 0 := by
  unfold alignPad
  rw [if_neg (by omega)]
  have h1 : n % a < a := Nat.mod_lt _ h
  rcases Nat.eq_zero_or_pos (n % a) with h2 | h2
  · rw [h2, Nat.sub_zero, Nat.mod_self, Nat.add_zero]
    exact h2
  · rw [Nat.mod_eq_of_lt (by omega : a - n % a < a)]
    have h3 : n % a ≤ n := Nat.mod_le n a
    have h4 : n + (a - n % a) = (n - n % a) + a := by omega
    rw [h4]
    obtain ⟨q, hq⟩ : a ∣ (n - n % a) := by
      have h5 := Nat.div_add_mod n a
      exact ⟨n / a, Nat.sub_eq_of_eq_add h5.symm⟩
    rw [hq]
    simp [Nat.add_mod, Nat.mul_mod_right]

theorem alignTo_length_mod (buf : List Nat) (a : Nat) (h : 0 < a) :
    (alignTo buf a).length % a = 0 := by
  rw [alignTo_length]
  exact alignPad_mod _ _ h

theorem alignPad_of_mod_zero (n a : Nat) (h : n % a = 0) : alignPad n a = 0 := by
  unfold alignPad
  split
  · rfl
  · rw [h]
    simp [Nat.sub_zero, Nat.mod_self]

theorem alignTo_of_mod_zero (buf : List Nat) (a : Nat) (h : buf.length % a = 0) :
    alignTo buf a = buf := by
  unfold alignTo
  rw [alignPad_of_mod_zero _ _ h]
  simp

theorem alignTo_one (buf : List Nat) : alignTo buf 1 = buf :=
  alignTo_of_mod_zero buf 1 (Nat.mod_one _)

theorem spliceAt_append (pre mid post repl : List Nat)
    (hmid : mid.length = repl.length) :
    spliceAt (pre ++ mid ++ post) pre.length repl = pre ++ repl ++ post := by
  unfold spliceAt
  have h1 : (pre ++ mid ++ post).take pre.length = pre := by
    rw [List.append_assoc, List.take_left]
  have h2 : (pre ++ mid ++ post).drop (pre.length + repl.length) = post := by
    rw [List.append_assoc, List.drop_append_eq_append_drop]
    rw [List.drop_of_length_le (by omega), List.nil_append]
    rw [List.drop_append_eq_append_drop]
    rw [List.drop_of_length_le (by omega), List.nil_append]
    rw [(by simp; omega : pre.length + repl.length - pre.length - mid.length = 0)]
    rfl
  rw [h1, h2]

theorem spliceAt_prefix (buf r repl : List Nat) (idx : Nat)
    (h : buf.length ≤ idx) :
    ∃ s, spliceAt (buf ++ r) idx repl = buf ++ s := by
  unfold spliceAt
  refine ⟨r.take (idx - buf.length) ++ repl ++ (buf ++ r).drop (idx + repl.length), ?_⟩
  rw [List.take_append_eq_append_take, List.take_of_length_le h]
  simp

/-! ## The encoder only appends -/

theorem prefix_trans_append {l1 l2 : List Nat} (h : l1 <+: l2) (t : List Nat) :
    l1 <+: l2 ++ t :=
  h.trans (List.prefix_append _ _)

theorem prefix_alignTo (buf : List Nat) (a : Nat) : buf <+: alignTo buf a := by
  unfold alignTo
  exact List.prefix_append _ _

mutual
theorem marshallType_extends : ∀ (buf : List Nat) (t : TypeV) (out : List Nat),
    marshallType buf t = some out → buf <+: out
  | buf, .basic b, out, h =>
      marshallBasic_extends buf b out (by rw [marshallType] at h; exact h)
  | buf, .container c, out, h =>
      marshallContainer_extends buf c out (by rw [marshallType] at h; exact h)

theorem marshallBasic_extends : ∀ (buf : List Nat) (b : BasicV) (out : List Nat),
    marshallBasic buf b = some out → buf <+: out
  | buf, .byte n, out, h => by
      rw [marshallBasic] at h
      rw [← Option.some_inj.mp h]
      exact List.prefix_append _ _
  | buf, .boolean v, out, h => by
      rw [marshallBasic] at h
      rw [← Option.some_inj.mp h]
      exact prefix_trans_append (prefix_alignTo buf 4) _
  | buf, .int16 i, out, h => by
      rw [marshallBasic] at h
      rw [← Option.some_inj.mp h]
      exact prefix_trans_append (prefix_alignTo buf 2) _
  | buf, .uint16 n, out, h => by
      rw [marshallBasic] at h
      rw [← Option.some_inj.mp h]
      exact prefix_trans_append (prefix_alignTo buf 2) _
  | buf, .int32 i, out, h => by
      rw [marshallBasic] at h
      rw [← Option.some_inj.mp h]
      exact prefix_trans_append (prefix_alignTo buf 4) _
  | buf, .uint32 n, out, h => by
      rw [marshallBasic] at h
      rw [← Option.some_inj.mp h]
      exact prefix_trans_append (prefix_alignTo buf 4) _
  | buf, .int64 i, out, h => by
      rw [marshallBasic] at h
      rw [← Option.some_inj.mp h]
      exact prefix_trans_append (prefix_alignTo buf 8) _
  | buf, .uint64 n, out, h => by
      rw [marshallBasic] at h
      rw [← Option.some_inj.mp h]
      exact prefix_trans_append (prefix_alignTo buf 8) _
  | buf, .double n, out, h => by
      rw [marshallBasic] at h
      rw [← Option.some_inj.mp h]
      exact prefix_trans_append (prefix_alignTo buf 8) _
  | buf, .string bytes, out, h => by
      rw [marshallBasic] at h
      unfold marshallString at h
      split at h
      · rw [← Option.some_inj.mp h]
        exact prefix_trans_append
          (prefix_trans_append (prefix_trans_append (prefix_alignTo buf 4) _) _) _
      · exact absurd h (by simp)
  | buf, .objectPath bytes, out, h => by
      rw [marshallBasic] at h
      unfold marshallString at h
      split at h
      · rw [← Option.some_inj.mp h]
        exact prefix_trans_append
          (prefix_trans_append (prefix_trans_append (prefix_alignTo buf 4) _) _) _
      · exact absurd h (by simp)
  | buf, .signature vec, out, h => by
      rw [marshallBasic] at h
      unfold marshallSignatureV at h
      split at h
      · rw [← Option.some_inj.mp h]
        exact prefix_trans_append
          (prefix_trans_append (prefix_trans_append List.prefix_rfl _) _) _
      · exact absurd h (by simp)
  | buf, .unixFileDescriptor, out, h => by
      rw [marshallBasic] at h
      exact absurd h (by simp)

theorem marshallContainer_extends :
    ∀ (buf : List Nat) (c : ContainerV) (out : List Nat),
    marshallContainer buf c = some out → buf <+: out
  | buf, .array t items, out, h => by
      rw [marshallContainer] at h
      rcases hm : marshallList
          (alignTo (alignTo buf 4 ++ [0, 0, 0, 0]) t.marshalling_boundary)
          items with _ | buf4
      · rw [hm] at h
        exact absurd h (by simp)
      · rw [hm] at h
        dsimp only at h
        have hpre3 : buf <+:
            alignTo (alignTo buf 4 ++ [0, 0, 0, 0]) t.marshalling_boundary := by
          unfold alignTo
          exact prefix_trans_append
            (prefix_trans_append (prefix_trans_append List.prefix_rfl _) _) _
        have hpre4 : buf <+: buf4 :=
          hpre3.trans (marshallList_extends _ items buf4 hm)
        obtain ⟨r, hr⟩ := hpre4
        subst hr
        split at h
        · have hout := Option.some_inj.mp h
          have hidx : buf.length ≤ (alignTo buf 4).length := by
            rw [alignTo_length]; omega
          obtain ⟨s2, hs2⟩ := spliceAt_prefix buf r
            (natToBEBytes 4 ((buf ++ r).length -
              (alignTo (alignTo buf 4 ++ [0, 0, 0, 0])
                t.marshalling_boundary).length))
            (alignTo buf 4).length hidx
          rw [← hout, hs2]
          exact List.prefix_append _ _
        · exact absurd h (by simp)
  | buf, .struct fields, out, h => by
      rw [marshallContainer] at h
      exact (prefix_alignTo buf 8).trans (marshallList_extends _ fields out h)
  | buf, .variant v, out, h => by
      rw [marshallContainer] at h
      rcases hsig : marshallSignatureV buf [v.signatureOf] with _ | buf1
      · rw [hsig] at h
        exact absurd h (by simp)
      · rw [hsig] at h
        dsimp only at h
        have hbuf1 : buf <+: buf1 := by
          unfold marshallSignatureV at hsig
          split at hsig
          · rw [← Option.some_inj.mp hsig]
            exact prefix_trans_append
              (prefix_trans_append (prefix_trans_append List.prefix_rfl _) _) _
          · exact absurd hsig (by simp)
        exact hbuf1.trans (marshallType_extends buf1 v out h)
  | buf, .dictEntry k v, out, h => by
      rw [marshallContainer] at h
      exact absurd h (by simp)

theorem marshallList_extends : ∀ (buf : List Nat) (ts : List TypeV) (out : List Nat),
    marshallList buf ts = some out → buf <+: out
  | buf, [], out, h => by
      rw [marshallList] at h
      rw [← Option.some_inj.mp h]
  | buf, t :: ts, out, h => by
      rw [marshallList] at h
      rcases ht : marshallType buf t with _ | buf'
      · rw [ht] at h
        exact absurd h (by simp)
      · rw [ht] at h
        dsimp only at h
        exact (marshallType_extends buf t buf' ht).trans
          (marshallList_extends buf' ts out h)
end

/-! ## Claim C8 — boolean codec -/

/-- C8. Marshalling `Boolean(true)` at a 4-aligned offset produces
`00 00 00 01` and `Boolean(false)` produces `00 00 00 00`; unmarshalling a
boolean succeeds exactly when the decoded u32 is 0 or 1 and fails for every
other u32 value. -/
theorem boolean_codec (buf : List Nat) (h4 : buf.length % 4 = 0) :
    marshallBasic buf (.boolean true) = some (buf ++ [0, 0, 0, 1]) ∧
    marshallBasic buf (.boolean false) = some (buf ++ [0, 0, 0, 0]) ∧
    ∀ (v : Nat) (rest : List Nat),
      unmarshallDBusBoolean (natToBEBytes 4 v ++ rest) =
        if v % 2 ^ 32 = 0 then some (rest, .boolean false)
        else if v % 2 ^ 32 = 1 then some (rest, .boolean true)
        else none := by
  refine ⟨?_, ?_, ?_⟩
  · rw [marshallBasic, alignTo_of_mod_zero buf 4 h4]
    rfl
  · rw [marshallBasic, alignTo_of_mod_zero buf 4 h4]
    rfl
  · intro v rest
    unfold unmarshallDBusBoolean
    rw [parseBE_exact 4 _ rest (natToBEBytes_length 4 v), beVal_natToBEBytes]
    have h32 : (256 : Nat) ^ 4 = 2 ^ 32 := by norm_num
    rw [h32]
    rcases hv : v % 2 ^ 32 with _ | _ | v'
    · simp
    · simp
    · simp

/-- C8 witness: the codec evaluated at offset 0 and at the u32 value 2. -/
theorem boolean_codec_witness :
    marshallBasic [] (.boolean true) = some [0, 0, 0, 1] ∧
    unmarshallDBusBoolean [0, 0, 0, 2] = none := by
  have h := boolean_codec [] (by decide)
  refine ⟨by simpa using h.1, ?_⟩
  have h2 := h.2.2 2 []
  simpa using h2

/-! ## Claim C9 — the Hello method call -/

/-- C9. The method call built by `Connection::say_hello` has destination
`org.freedesktop.DBus`, interface `org.freedesktop.DBus`, member `Hello`,
an empty body, and goes out as a `MethodCall`; its path, however, is the
20-byte string `org/freedesktop/DBus` — the leading `/` required by the
claim (and by the D-Bus object-path syntax) is missing from the source. -/
theorem say_hello_message_fields :
    sayHelloMethodCall.destination = asciiBytes "org.freedesktop.DBus" ∧
    sayHelloMethodCall.interface = some (asciiBytes "org.freedesktop.DBus") ∧
    sayHelloMethodCall.member = asciiBytes "Hello" ∧
    sayHelloMethodCall.body = [] ∧
    callMethodMessageType = MessageType.methodCall ∧
    sayHelloMethodCall.path = asciiBytes "org/freedesktop/DBus" ∧
    sayHelloMethodCall.path ≠ asciiBytes "/org/freedesktop/DBus" := by
  refine ⟨rfl, rfl, rfl, rfl, rfl, rfl, ?_⟩
  decide

/-! ## Claim C10 — the decoder input wrapper's alignment invariant -/

/-- The advance loop: it only returns an input whose alignment is 0, it
preserves the slice invariant, and it consumes only null bytes. -/
theorem advanceLoop_spec (O : List Nat) :
    ∀ (fuel : Nat) (i j : I), ReprOf O i → I.advanceLoop fuel i = some j →
      j.alignment = 0 ∧ ReprOf O j ∧
      ∃ m, j.data = i.data.drop m ∧ ∀ x ∈ i.data.take m, x = 0
  | 0, i, j, hr, h => by
      rw [I.advanceLoop] at h
      split at h
      · refine ⟨by rw [← Option.some_inj.mp h]; assumption, ?_, 0, ?_, ?_⟩
        · rw [← Option.some_inj.mp h]; exact hr
        · rw [← Option.some_inj.mp h]; simp
        · simp
      · exact absurd h (by simp)
  | fuel + 1, i, j, hr, h => by
      rw [I.advanceLoop] at h
      split at h
      · refine ⟨by rw [← Option.some_inj.mp h]; assumption, ?_, 0, ?_, ?_⟩
        · rw [← Option.some_inj.mp h]; exact hr
        · rw [← Option.some_inj.mp h]; simp
        · simp
      · rcases hskip : I.skipNullByte i with _ | i'
        · rw [hskip] at h
          exact absurd h (by simp)
        · rw [hskip] at h
          dsimp only at h
          unfold I.skipNullByte at hskip
          rcases hdata : i.data with _ | ⟨b, rest⟩
          · rw [hdata] at hskip
            exact absurd hskip (by simp)
          · rw [hdata] at hskip
            dsimp only at hskip
            split at hskip
            next hb =>
              have hi' := Option.some_inj.mp hskip
              obtain ⟨k, hk1, hk2, hk3⟩ := hr
              rw [hdata] at hk2 hk3
              simp only [List.length_cons] at hk2 hk3
              have hd' : i'.data = rest := by
                rw [← hi']
                unfold I.sliceFrom
                rw [hdata]
                rfl
              have ha' : i'.alignment = (i.alignment + 1) % 8 := by
                rw [← hi']
                rfl
              have hrep' : ReprOf O i' := by
                refine ⟨k + 1, ?_, ?_, ?_⟩
                · rw [ha', hk1]
                  omega
                · rw [hd']
                  omega
                · rw [hd']
                  have hdp := congrArg (List.drop 1) hk3
                  simp only [List.drop_succ_cons, List.drop_zero] at hdp
                  rw [List.drop_take, List.drop_drop] at hdp
                  rw [Nat.add_sub_cancel] at hdp
                  exact hdp
              obtain ⟨ha0, hrj, m', hm1, hm2⟩ :=
                advanceLoop_spec O fuel i' j hrep' h
              refine ⟨ha0, hrj, m' + 1, ?_, ?_⟩
              · rw [hm1, hd', List.drop_succ_cons]
              · intro x hx
                rw [List.take_succ_cons, List.mem_cons] at hx
                rcases hx with hxb | hxr
                · rw [hxb]
                  exact hb
                · rw [hd'] at hm2
                  exact hm2 x hxr
            next => exact absurd hskip (by simp)

/-- C10. Every operation on the decoder input wrapper `I` preserves the
invariant that `alignment` equals the offset of the slice within the
original 8-aligned data modulo 8: `new` starts it, `slice(n..)` and the
remaining half of `take_split(n)` add `n` modulo 8, `take(n)` and the
taken half of `take_split(n)` leave it unchanged, and `advance_to_boundary`
consumes only zero bytes and returns an input whose alignment is 0. -/
theorem input_alignment_invariant (O : List Nat) (i : I) (h : ReprOf O i) :
    ReprOf O (I.new O) ∧
    (∀ n, n ≤ i.data.length → ReprOf O (i.sliceFrom n) ∧
      (i.sliceFrom n).alignment = (i.alignment + n) % 8) ∧
    (∀ n, ReprOf O (i.take n) ∧ (i.take n).alignment = i.alignment) ∧
    (∀ n, n ≤ i.data.length →
      ReprOf O (i.take_split n).1 ∧
      (i.take_split n).1.alignment = (i.alignment + n) % 8 ∧
      ReprOf O (i.take_split n).2 ∧
      (i.take_split n).2.alignment = i.alignment) ∧
    (∀ b j, i.advance_to_boundary b = some j →
      j.alignment = 0 ∧ ReprOf O j ∧
      ∃ m, j.data = i.data.drop m ∧ ∀ x ∈ i.data.take m, x = 0) := by
  obtain ⟨k, hk1, hk2, hk3⟩ := h
  have hslice : ∀ n, n ≤ i.data.length → ReprOf O (i.sliceFrom n) ∧
      (i.sliceFrom n).alignment = (i.alignment + n) % 8 := by
    intro n hn
    constructor
    · refine ⟨k + n, ?_, ?_, ?_⟩
      · unfold I.sliceFrom
        dsimp
        omega
      · unfold I.sliceFrom
        dsimp
        simp only [List.length_drop]
        omega
      · unfold I.sliceFrom
        dsimp
        simp only [List.length_drop]
        have hdp := congrArg (List.drop n) hk3
        rw [List.drop_take, List.drop_drop] at hdp
        rw [hdp]
    · unfold I.sliceFrom
      dsimp
  have htake : ∀ n, ReprOf O (i.take n) ∧ (i.take n).alignment = i.alignment := by
    intro n
    refine ⟨⟨k, ?_, ?_, ?_⟩, rfl⟩
    · exact hk1
    · unfold I.take
      dsimp
      simp only [List.length_take]
      omega
    · unfold I.take
      dsimp
      simp only [List.length_take]
      conv_lhs => rw [hk3]
      rw [List.take_take]
  refine ⟨?_, hslice, htake, ?_, ?_⟩
  · exact ⟨0, rfl, by simp [I.new], by simp [I.new]⟩
  · intro n hn
    have h1 := hslice n hn
    have h2 := htake n
    exact ⟨h1.1, h1.2, h2.1, h2.2⟩
  · intro b j hadv
    exact advanceLoop_spec O 8 i j ⟨k, hk1, hk2, hk3⟩ hadv

/-- C10 witness: the invariant instantiated on the concrete input
`[0, 1, 2]` starting from `I::new`. -/
theorem input_alignment_invariant_witness :
    ((I.new [0, 1, 2]).sliceFrom 1).alignment =
      ((I.new [0, 1, 2]).alignment + 1) % 8 := by
  have h := input_alignment_invariant [0, 1, 2] (I.new [0, 1, 2])
    ⟨0, rfl, by simp [I.new], by simp [I.new]⟩
  exact (h.2.1 1 (by simp [I.new])).2

/-! ## Claim C2 — endianness handling in the message decoder -/

theorem unmarshallMessageParse_none (i : List Nat) :
    unmarshallMessageParse i = none := by
  unfold unmarshallMessageParse
  rcases hf : unmarshallFixedHeader i with _ | ⟨i1, fh⟩
  · rfl
  · rcases he : fh.endianness with _ | _
    · rcases ha : unmarshallDBusArray i1 HEADER_FIELD_SIGNATURE with _ | r
      · simp [he, ha]
      · simp [he, ha]
    · simp [he]

/-- C2 (amended). The decoder selects the byte order from the endianness
byte: with `B` the body-length and serial words of the fixed header are read
big-endian, with `l` little-endian, and any other first byte is rejected;
however, decoding of the header-field array is implemented only for
big-endian (and even there its struct elements are unimplemented), so
`unmarshall_message` never succeeds on any input. -/
theorem message_decoder_endianness :
    (∀ flags b0 b1 b2 b3 s0 s1 s2 s3 (rest : List Nat),
      unmarshallFixedHeader (66 :: 1 :: flags :: 1 ::
          ([b0, b1, b2, b3] ++ [s0, s1, s2, s3] ++ rest)) =
        some (rest,
          { endianness := .bigEndian
            message_type := .methodCall
            flag_no_reply_expected := flags &&& 0x1 = 0x1
            flag_no_auto_start := flags &&& 0x2 = 0x2
            flag_allow_interactive_authorization := flags &&& 0x4 = 0x4
            length_in_bytes_of_message_body := beVal [b0, b1, b2, b3]
            serial := beVal [s0, s1, s2, s3] })) ∧
    (∀ flags b0 b1 b2 b3 s0 s1 s2 s3 (rest : List Nat),
      unmarshallFixedHeader (108 :: 1 :: flags :: 1 ::
          ([b0, b1, b2, b3] ++ [s0, s1, s2, s3] ++ rest)) =
        some (rest,
          { endianness := .littleEndian
            message_type := .methodCall
            flag_no_reply_expected := flags &&& 0x1 = 0x1
            flag_no_auto_start := flags &&& 0x2 = 0x2
            flag_allow_interactive_authorization := flags &&& 0x4 = 0x4
            length_in_bytes_of_message_body := leVal [b0, b1, b2, b3]
            serial := leVal [s0, s1, s2, s3] })) ∧
    (∀ i, unmarshallMessage i = none) := by
  refine ⟨?_, ?_, ?_⟩
  · intro flags b0 b1 b2 b3 s0 s1 s2 s3 rest
    simp [unmarshallFixedHeader, unmarshallEndianness, unmarshallMessageType,
      tagP, MAJOR_PROTOCOL_VERSION, parseU32For, parseBE, parseLE32, takeN,
      beVal, leVal]
  · intro flags b0 b1 b2 b3 s0 s1 s2 s3 rest
    simp [unmarshallFixedHeader, unmarshallEndianness, unmarshallMessageType,
      tagP, MAJOR_PROTOCOL_VERSION, parseU32For, parseBE, parseLE32, takeN,
      beVal, leVal]
  · intro i
    unfold unmarshallMessage
    rw [unmarshallMessageParse_none i]

/-- C2 counterexample: a well-formed big-endian message produced by the
crate's own `Connection::marshall_message` which `unmarshall_message`
nevertheless fails to decode (the claim asserts decoding succeeds). -/
theorem message_decoder_counterexample :
    ((marshall_message 0 .methodCall [] [] []).2).isSome = true ∧
    unmarshallMessage ((marshall_message 0 .methodCall [] [] []).2.getD []) =
      none := by
  constructor
  · rfl
  · rfl

/-! ## Claim C7 — signature parse and render -/

theorem unmarshallBasicCode_serialize (c : Nat) (s : SCTS)
    (h : unmarshallBasicCode c = some s) : s.serialize = [c] := by
  unfold unmarshallBasicCode at h
  split at h <;>
    first
      | (rw [← Option.some_inj.mp h]; rfl)
      | exact absurd h (by simp)

theorem unmarshallBasicCode_not_container (c : Nat) (s : SCTS)
    (h : unmarshallBasicCode c = some s) :
    ¬(c = 97 ∨ c = 40 ∨ c = 123) := by
  intro hc
  rcases hc with hc | hc | hc <;> subst hc <;> simp [unmarshallBasicCode] at h

theorem sigLoop_serializeList (T : List Nat)
    (hc : ∀ c ∈ T, (unmarshallBasicCode c).isSome) (pre : List Nat) :
    ∃ vec, sigLoop (pre ++ T) pre.length T.length = some vec ∧
      SCTS.serializeList vec = T := by
  induction T generalizing pre with
  | nil => exact ⟨[], rfl, rfl⟩
  | cons c T ih =>
      have hcs : (unmarshallBasicCode c).isSome := hc c (by simp)
      rcases hs : unmarshallBasicCode c with _ | s
      · rw [hs] at hcs
        simp at hcs
      · obtain ⟨vec, hv1, hv2⟩ := ih (fun x hx => hc x (by simp [hx]))
          (pre ++ [c])
      
        refine ⟨s :: vec, ?_, ?_⟩
        · simp only [List.length_cons]
          rw [sigLoop]
          have hget : (pre ++ c :: T).get? pre.length = some c := by
            rw [List.get?_append_right (Nat.le_refl _)]
            simp
          rw [hget]
          dsimp only
          rw [if_neg (unmarshallBasicCode_not_container c s hs)]
          rw [hs]
          dsimp only
          have hre : pre ++ c :: T = (pre ++ [c]) ++ T := by simp
          have hlen2 : pre.length + 1 = (pre ++ [c]).length := by simp
          rw [hre, hlen2, hv1]
        · rw [SCTS.serializeList, hv2, unmarshallBasicCode_serialize c s hs]
          rfl

/-- C7 (amended). The signature parser supports exactly the twelve basic
type codes: for every signature text `T` of such codes (at most 255 bytes),
parsing the length-prefixed text succeeds and rendering the parsed
signature yields exactly `T` back (so render is length-preserving on the
parser's domain); texts containing the container codes — in particular
`a\x7bsv\x7d` — do not parse, because the parser's container arms are
unimplemented. -/
theorem signature_parse_render (T : List Nat) (hlen : T.length <= 255)
    (hc : ∀ c ∈ T, (unmarshallBasicCode c).isSome) :
    ∃ vec, unmarshallDBusSignature (T.length :: T) =
        some (T, .signature vec) ∧
      SCTS.serializeList vec = T ∧ (SCTS.serializeList vec).length = T.length := by
  obtain ⟨vec, hv1, hv2⟩ := sigLoop_serializeList T hc []
  refine ⟨vec, ?_, hv2, by rw [hv2]⟩
  rw [unmarshallDBusSignature]
  simp only [List.nil_append, List.length_nil] at hv1
  rw [hv1]

/-- C7 witness: the two-byte text `si` parses and renders back to itself. -/
theorem signature_parse_render_witness :
    ∃ vec, unmarshallDBusSignature [2, 115, 105] =
        some ([115, 105], .signature vec) ∧
      SCTS.serializeList vec = [115, 105] ∧
      (SCTS.serializeList vec).length = ([115, 105] : List Nat).length := by
  exact signature_parse_render [115, 105] (by decide)
    (by decide)

/-- C7 counterexample: the text `a\x7bsv\x7d` (claimed to parse and
re-render) does not parse at all — the array/dict arms of
`DBusSignature::unmarshall_be` are unimplemented. -/
theorem signature_parse_counterexample :
    unmarshallDBusSignature (("a\x7bsv\x7d".length) :: asciiBytes "a\x7bsv\x7d") =
      none := by
  rfl

/-! ## Claim C6 — the serial counter -/

/-- C6 (amended). A connection's serial counter starts at 0 and is
incremented once per message whose body marshals; as long as fewer than
`2^32` messages have been sent the assigned serials are strictly increasing
and never zero. There is no overflow check: at `u32::MAX` the counter wraps
to 0 (u32 wrapping arithmetic) and the send is not failed. -/
theorem serial_counter (serial : Nat) (mt : MessageType)
    (flags : List HeaderFlag) (fields : List HeaderField) (body : List TypeV)
    (hs : serial + 1 < 2 ^ 32) (hb : (bodyMarshallBE body).isSome) :
    newConnectionSerial = 0 ∧
    (marshall_message serial mt flags fields body).1 = serial + 1 ∧
    serial < (marshall_message serial mt flags fields body).1 ∧
    (marshall_message serial mt flags fields body).1 ≠ 0 := by
  have hmain : (marshall_message serial mt flags fields body).1 = serial + 1 := by
    unfold marshall_message
    rcases hbm : bodyMarshallBE body with _ | mb
    · rw [hbm] at hb
      simp at hb
    · dsimp only
      have hmod : (serial + 1) % 2 ^ 32 = serial + 1 := Nat.mod_eq_of_lt hs
      split
      · split
        · rw [hmod]
        · rw [hmod]
      · rw [hmod]
  exact ⟨rfl, hmain, by omega, by omega⟩

/-- C6 witness: the first send on a fresh connection (empty body) gets
serial 1. -/
theorem serial_counter_witness :
    (marshall_message 0 .methodCall [] [] []).1 = 0 + 1 := by
  exact (serial_counter 0 .methodCall [] [] [] (by norm_num) (by rfl)).2.1

/-- C6 counterexample: at `serial = u32::MAX` the next send succeeds and
wraps the counter (and the emitted serial field) to 0 instead of failing. -/
theorem serial_wrap_counterexample :
    (marshall_message (2 ^ 32 - 1) .methodCall [] [] []).1 = 0 ∧
    ((marshall_message (2 ^ 32 - 1) .methodCall [] [] []).2).isSome = true ∧
    (((marshall_message (2 ^ 32 - 1) .methodCall [] [] []).2.getD []).drop 8).take 4 =
      [0, 0, 0, 0] := by
  refine ⟨?_, ?_, ?_⟩ <;> rfl

/-! ## Claim C4 — array reception -/

theorem stepPositions_one (L : Nat) : stepPositions L 1 = List.range L := by
  unfold stepPositions
  simp

theorem decodeAtPositions_append
    (dec : List Nat → Option (List Nat × BasicV)) (i : List Nat)
    (l1 l2 : List Nat) (xs ys : List TypeV)
    (h1 : decodeAtPositions dec i l1 = some xs)
    (h2 : decodeAtPositions dec i l2 = some ys) :
    decodeAtPositions dec i (l1 ++ l2) = some (xs ++ ys) := by
  induction l1 generalizing xs with
  | nil =>
      simp only [decodeAtPositions] at h1
      rw [← Option.some_inj.mp h1]
      simpa using h2
  | cons pos ps ih =>
      rw [List.cons_append]
      rw [decodeAtPositions] at h1
      rw [decodeAtPositions]
      rcases hd : arrayDecodeAt dec i pos with _ | v
      · rw [hd] at h1
        exact absurd h1 (by simp)
      · rw [hd] at h1
        dsimp only at h1 ⊢
        rcases hr : decodeAtPositions dec i ps with _ | vs
        · rw [hr] at h1
          exact absurd h1 (by simp)
        · rw [hr] at h1
          dsimp only at h1
          rw [ih vs hr]
          rw [← Option.some_inj.mp h1]
          rfl

theorem byte_loop (rest : List Nat) : ∀ L, L ≤ rest.length →
    decodeAtPositions unmarshallDBusByte rest (List.range L) =
      some ((rest.take L).map (fun b => TypeV.basic (.byte b))) := by
  intro L
  induction L with
  | zero => intro _; rfl
  | succ L ih =>
      intro hlen
      have hdec : arrayDecodeAt unmarshallDBusByte rest L =
          some (.basic (.byte (rest.getD L 0))) := by
        unfold arrayDecodeAt
        rw [if_pos (by omega)]
        have hdrop : rest.drop L = rest.getD L 0 :: rest.drop (L + 1) := by
          rw [List.getD_eq_getElem?_getD, List.getElem?_eq_getElem (by omega)]
          exact List.drop_eq_getElem_cons (by omega)
        rw [hdrop]
        rfl
      have hone : decodeAtPositions unmarshallDBusByte rest [L] =
          some [.basic (.byte (rest.getD L 0))] := by
        rw [decodeAtPositions, hdec]
        rfl
      rw [List.range_succ]
      rw [decodeAtPositions_append unmarshallDBusByte rest (List.range L) [L]
        _ _ (ih (by omega)) hone]
      have hLlt : L < rest.length := by omega
      have htake : rest.take (L + 1) =
          rest.take L ++ [rest.getD L 0] := by
        rw [List.take_succ, List.getElem?_eq_getElem hLlt]
        simp [List.getD_eq_getElem?_getD, List.getElem?_eq_getElem hLlt]
      rw [htake]
      simp

/-- C4 (amended). For a byte array the decoder reads the u32 byte length
`L` and decodes the next `L` bytes as the items, but does not consume them:
the remaining input it returns is still positioned at the first element,
not after the last one. (For element boundaries above 4 it first expects
`4 % size` literal null padding bytes, and elements are read by indexing at
fixed strides of the element size rather than by consuming input, so only
the fixed-width basic element kinds decode; the kinds whose arms are
`todo!()` fail.) -/
theorem array_reception_byte (L : Nat) (rest : List Nat)
    (hL : L < 2 ^ 32) (hlen : L ≤ rest.length) :
    unmarshallDBusArray (natToBEBytes 4 L ++ rest) .byte =
      some (rest, .array .byte
        ((rest.take L).map (fun b => TypeV.basic (.byte b)))) := by
  unfold unmarshallDBusArray
  rw [parseBE_natToBEBytes 4 L rest (by norm_num at hL ⊢; omega)]
  dsimp only
  rw [if_neg (by norm_num [SCTS.marshalling_boundary])]
  dsimp only
  simp only [elemDecoder, elemStep]
  rw [stepPositions_one, byte_loop rest L hlen]

/-- C4 witness: the amended reception law on the test vector. -/
theorem array_reception_byte_witness :
    unmarshallDBusArray (natToBEBytes 4 3 ++ [15, 16, 17]) .byte =
      some ([15, 16, 17], .array .byte
        ((([15, 16, 17] : List Nat).take 3).map
          (fun b => TypeV.basic (.byte b)))) :=
  array_reception_byte 3 [15, 16, 17] (by norm_num) (by norm_num)

/-- C4 counterexample: on the crate's own test vector
`[0,0,0,3,15,16,17]` the returned remaining input is `[15,16,17]` — the
position of the FIRST element — not the empty remainder that "immediately
after the array's last element" requires. -/
theorem array_reception_counterexample :
    unmarshallDBusArray [0, 0, 0, 3, 15, 16, 17] .byte =
      some ([15, 16, 17], .array .byte
        [.basic (.byte 15), .basic (.byte 16), .basic (.byte 17)]) ∧
    ([15, 16, 17] : List Nat) ≠ [] := by
  exact ⟨rfl, by decide⟩


/-! ## Claim C3 — array emission -/

/-- C3. Marshalling an array aligns to 4, reserves a 4-byte length field,
pads to the element boundary, writes the elements, and backfills the length
with exactly the number of bytes from the first element to the end of the
last — the element-alignment padding is not counted. In particular
`Array<Byte>[0x0F,0x10,0x11]` at offset 0 encodes to
`00 00 00 03 0F 10 11`. -/
theorem array_emission (buf : List Nat) (t : SCTS) (items : List TypeV)
    (R : List Nat) (h : marshallContainer buf (.array t items) = some R) :
    (∃ body : List Nat,
      marshallList (alignTo (alignTo buf 4 ++ [0, 0, 0, 0])
          t.marshalling_boundary) items =
        some (alignTo (alignTo buf 4 ++ [0, 0, 0, 0])
          t.marshalling_boundary ++ body) ∧
      body.length < 2 ^ 32 ∧
      R = alignTo buf 4 ++ natToBEBytes 4 body.length ++
          List.replicate
            (alignPad ((alignTo buf 4).length + 4) t.marshalling_boundary) 0 ++
          body) ∧
    marshallContainer [] (.array .byte
        [.basic (.byte 15), .basic (.byte 16), .basic (.byte 17)]) =
      some [0, 0, 0, 3, 15, 16, 17] := by
  refine ⟨?_, rfl⟩
  rw [marshallContainer] at h
  rcases hm : marshallList
      (alignTo (alignTo buf 4 ++ [0, 0, 0, 0]) t.marshalling_boundary)
      items with _ | buf4
  · rw [hm] at h
    exact absurd h (by simp)
  · rw [hm] at h
    dsimp only at h
    obtain ⟨body, hbody⟩ :=
      marshallList_extends _ items buf4 hm
    split at h
    next hlt =>
      have hout := Option.some_inj.mp h
      have hlenb : buf4.length -
          (alignTo (alignTo buf 4 ++ [0, 0, 0, 0])
            t.marshalling_boundary).length = body.length := by
        rw [← hbody]
        simp
      refine ⟨body, ?_, ?_, ?_⟩
      · rw [← hbody]
      · rw [hlenb] at hlt
        exact hlt
      · rw [← hout, hlenb, ← hbody]
        have hsplit : alignTo (alignTo buf 4 ++ [0, 0, 0, 0])
            t.marshalling_boundary ++ body =
            alignTo buf 4 ++ [0, 0, 0, 0] ++
              (List.replicate
                (alignPad ((alignTo buf 4).length + 4) t.marshalling_boundary)
                0 ++ body) := by
          unfold alignTo
          simp [List.append_assoc]
          rw [← Nat.add_assoc]
        rw [hsplit]
        rw [spliceAt_append (alignTo buf 4) [0, 0, 0, 0] _ _
          (by simp [natToBEBytes_length])]
        simp only [List.append_assoc]
    next => exact absurd h (by simp)

/-- C3 witness: the scenario S5 instance extracted through the theorem. -/
theorem array_emission_witness :
    marshallContainer [] (.array .byte
        [.basic (.byte 15), .basic (.byte 16), .basic (.byte 17)]) =
      some [0, 0, 0, 3, 15, 16, 17] :=
  (array_emission [] .byte
    [.basic (.byte 15), .basic (.byte 16), .basic (.byte 17)]
    [0, 0, 0, 3, 15, 16, 17] rfl).2


/-! ## Claim C5 — message framing -/

/-- C5. Every message marshalled by `Message::marshal_be` consists of a
header — the 12 fixed bytes plus the header-field array — padded with zero
bytes to an 8-byte boundary, followed by the marshalled body; bytes 5-8 of
the fixed header hold exactly the body's byte length, excluding that
padding. -/
theorem message_framing (m : MessageP) (R : List Nat)
    (h : m.marshal_be = some R) :
    ∃ B H, marshallList [] m.body = some B ∧
      R = H ++ B ∧
      H.length % 8 = 0 ∧
      (∃ H0, H = H0 ++ List.replicate (alignPad H0.length 8) 0) ∧
      (R.drop 4).take 4 = natToBEBytes 4 B.length ∧
      B.length < 2 ^ 32 := by
  unfold MessageP.marshal_be at h
  rcases hb : marshallList [] m.body with _ | mb
  · rw [hb] at h
    exact absurd h (by simp)
  · rw [hb] at h
    dsimp only at h
    split at h
    next hlt =>
      rcases hf : messageHeaderFields m with _ | fields
      · rw [hf] at h
        exact absurd h (by simp)
      · rw [hf] at h
        dsimp only at h
        rcases hh : marshallContainer
            ([66, m.message_type_param.message_type.decimal_value,
              flagsByte m.flag_no_reply_expected m.flag_no_auto_start
                m.flag_allow_interactive_authorization,
              MAJOR_PROTOCOL_VERSION] ++
              natToBEBytes 4 mb.length ++ natToBEBytes 4 m.serial)
            (.array HEADER_FIELD_SIGNATURE (fields.map headerFieldItem))
            with _ | hdr
        · rw [hh] at h
          exact absurd h (by simp)
        · rw [hh] at h
          dsimp only at h
          have hout := Option.some_inj.mp h
          obtain ⟨srest, hsrest⟩ := marshallContainer_extends _ _ _ hh
          refine ⟨mb, alignTo hdr 8, rfl, hout.symm,
            alignTo_length_mod hdr 8 (by norm_num), ⟨hdr, rfl⟩, ?_, hlt⟩
          have hR : ∃ W, R =
              ([66, m.message_type_param.message_type.decimal_value,
                flagsByte m.flag_no_reply_expected m.flag_no_auto_start
                  m.flag_allow_interactive_authorization,
                MAJOR_PROTOCOL_VERSION] : List Nat) ++
                (natToBEBytes 4 mb.length ++ W) := by
            rw [← hout, ← hsrest]
            unfold alignTo
            exact ⟨natToBEBytes 4 m.serial ++ (srest ++
              (List.replicate
                (alignPad (([66, m.message_type_param.message_type.decimal_value,
                  flagsByte m.flag_no_reply_expected m.flag_no_auto_start
                    m.flag_allow_interactive_authorization,
                  MAJOR_PROTOCOL_VERSION] ++
                  natToBEBytes 4 mb.length ++ natToBEBytes 4 m.serial ++
                  srest).length) 8) 0 ++ mb)),
              by simp [List.append_assoc]⟩
          obtain ⟨W, hRW⟩ := hR
          rw [hRW]
          have h1 : (([66, m.message_type_param.message_type.decimal_value,
              flagsByte m.flag_no_reply_expected m.flag_no_auto_start
                m.flag_allow_interactive_authorization,
              MAJOR_PROTOCOL_VERSION] : List Nat) ++
              (natToBEBytes 4 mb.length ++ W)).drop 4 =
              natToBEBytes 4 mb.length ++ W := rfl
          rw [h1, List.take_append_eq_append_take, natToBEBytes_length,
            List.take_of_length_le (by rw [natToBEBytes_length])]
          simp
    next => exact absurd h (by simp)

set_option maxRecDepth 16384 in
/-- C5 witness: the framing law applied to the crate's own
`message_marshalling` test message (MethodCall, all flags, serial 1,
empty body). -/
theorem message_framing_witness :
    ∃ B H, marshallList []
        (MessageP.mk true true true 1
          (.methodCall (asciiBytes "path") (some (asciiBytes "interface"))
            (asciiBytes "member")) none []).body = some B ∧
      (MessageP.mk true true true 1
        (.methodCall (asciiBytes "path") (some (asciiBytes "interface"))
          (asciiBytes "member")) none []).marshal_be.getD [] = H ++ B ∧
      H.length % 8 = 0 ∧
      (∃ H0, H = H0 ++ List.replicate (alignPad H0.length 8) 0) ∧
      ((((MessageP.mk true true true 1
        (.methodCall (asciiBytes "path") (some (asciiBytes "interface"))
          (asciiBytes "member")) none []).marshal_be.getD []).drop 4).take 4 =
        natToBEBytes 4 B.length) ∧
      B.length < 2 ^ 32 :=
  message_framing
    (MessageP.mk true true true 1
      (.methodCall (asciiBytes "path") (some (asciiBytes "interface"))
        (asciiBytes "member")) none [])
    ((MessageP.mk true true true 1
      (.methodCall (asciiBytes "path") (some (asciiBytes "interface"))
        (asciiBytes "member")) none []).marshal_be.getD []) (by rfl)


/-! ## Claim C1 — round-trip infrastructure -/

theorem sctsKindEq_sound (t u : SCTS) (h : sctsKindEq t u = true) : t = u := by
  cases t <;> cases u <;> first | rfl | simp [sctsKindEq] at h

/-- Marshalling one in-range fixed-width basic value at an offset aligned
to its size appends exactly its `elemBytes`, which have that size. -/
theorem marshallBasic_fixed (t : SCTS) (s : Nat)
    (hts : fixedElemSize t = some s) (b : BasicV)
    (hok : itemOk t (.basic b) = true) (buf : List Nat)
    (hal : buf.length % s = 0) :
    marshallBasic buf b = some (buf ++ elemBytes b) ∧
      (elemBytes b).length = s := by
  unfold itemOk at hok
  rw [Bool.and_eq_true] at hok
  have ht : t = b.signatureOf := sctsKindEq_sound _ _ hok.1
  subst ht
  cases b <;> simp only [BasicV.signatureOf, fixedElemSize] at hts <;>
    first
    | exact Option.noConfusion hts
    | (injection hts with hs
       subst hs
       refine ⟨?_, by simp [elemBytes, natToBEBytes_length]⟩
       first
       | rfl
       | (rw [marshallBasic, alignTo_of_mod_zero buf _ hal]
          rfl))

theorem decode_elem_byte (n : Nat) (rest : List Nat) :
    unmarshallDBusByte (elemBytes (.byte n) ++ rest) = some (rest, .byte n) :=
  rfl

theorem decode_elem_boolean (b : Bool) (rest : List Nat) :
    unmarshallDBusBoolean (elemBytes (.boolean b) ++ rest) =
      some (rest, .boolean b) := by
  cases b
  · show unmarshallDBusBoolean (natToBEBytes 4 0 ++ rest) = _
    unfold unmarshallDBusBoolean
    rw [parseBE_natToBEBytes 4 0 rest (by norm_num)]
  · show unmarshallDBusBoolean (natToBEBytes 4 1 ++ rest) = _
    unfold unmarshallDBusBoolean
    rw [parseBE_natToBEBytes 4 1 rest (by norm_num)]

theorem decode_elem_int16 (i : Int) (h1 : -(2 ^ 15) ≤ i) (h2 : i < 2 ^ 15)
    (rest : List Nat) :
    unmarshallDBusInt16 (elemBytes (.int16 i) ++ rest) =
      some (rest, .int16 i) := by
  unfold unmarshallDBusInt16 elemBytes
  rw [parseBE_natToBEBytes 2 _ rest
    (by have := toTwos_lt 16 i; norm_num at this ⊢; omega)]
  dsimp only
  rw [fromTwos_toTwos 16 i (by norm_num) (by norm_num; omega) (by norm_num; omega)]

theorem decode_elem_uint16 (n : Nat) (h : n < 2 ^ 16) (rest : List Nat) :
    unmarshallDBusUint16 (elemBytes (.uint16 n) ++ rest) =
      some (rest, .uint16 n) := by
  unfold unmarshallDBusUint16 elemBytes
  rw [parseBE_natToBEBytes 2 n rest (by norm_num at h ⊢; omega)]

theorem decode_elem_int32 (i : Int) (h1 : -(2 ^ 31) ≤ i) (h2 : i < 2 ^ 31)
    (rest : List Nat) :
    unmarshallDBusInt32 (elemBytes (.int32 i) ++ rest) =
      some (rest, .int32 i) := by
  unfold unmarshallDBusInt32 elemBytes
  rw [parseBE_natToBEBytes 4 _ rest
    (by have := toTwos_lt 32 i; norm_num at this ⊢; omega)]
  dsimp only
  rw [fromTwos_toTwos 32 i (by norm_num) (by norm_num; omega) (by norm_num; omega)]

theorem decode_elem_uint32 (n : Nat) (h : n < 2 ^ 32) (rest : List Nat) :
    unmarshallDBusUint32 (elemBytes (.uint32 n) ++ rest) =
      some (rest, .uint32 n) := by
  unfold unmarshallDBusUint32 elemBytes
  rw [parseBE_natToBEBytes 4 n rest (by norm_num at h ⊢; omega)]

theorem decode_elem_int64 (i : Int) (h1 : -(2 ^ 63) ≤ i) (h2 : i < 2 ^ 63)
    (rest : List Nat) :
    unmarshallDBusInt64 (elemBytes (.int64 i) ++ rest) =
      some (rest, .int64 i) := by
  unfold unmarshallDBusInt64 elemBytes
  rw [parseBE_natToBEBytes 8 _ rest
    (by have := toTwos_lt 64 i; norm_num at this ⊢; omega)]
  dsimp only
  rw [fromTwos_toTwos 64 i (by norm_num) (by norm_num; omega) (by norm_num; omega)]

theorem decode_elem_uint64 (n : Nat) (h : n < 2 ^ 64) (rest : List Nat) :
    unmarshallDBusUint64 (elemBytes (.uint64 n) ++ rest) =
      some (rest, .uint64 n) := by
  unfold unmarshallDBusUint64 elemBytes
  rw [parseBE_natToBEBytes 8 n rest (by norm_num at h ⊢; omega)]

theorem decode_elem_double (n : Nat) (h : n < 2 ^ 64) (rest : List Nat) :
    unmarshallDBusDouble (elemBytes (.double n) ++ rest) =
      some (rest, .double n) := by
  unfold unmarshallDBusDouble elemBytes
  rw [parseBE_natToBEBytes 8 n rest (by norm_num at h ⊢; omega)]


theorem marshallList_fixed (t : SCTS) (s : Nat)
    (hts : fixedElemSize t = some s) :
    ∀ (items : List TypeV), (∀ it ∈ items, itemOk t it = true) →
    ∀ (buf : List Nat), buf.length % s = 0 →
    marshallList buf items = some (buf ++ (items.map itemBytes).flatten) ∧
      (items.map itemBytes).flatten.length = items.length * s := by
  intro items
  induction items with
  | nil =>
      intro _ buf _
      refine ⟨?_, by simp⟩
      simp [marshallList]
  | cons it rest ih =>
      intro hok buf hal
      rcases it with b | c
      · have hone := marshallBasic_fixed t s hts b (hok _ (by simp)) buf hal
        have hal2 : (buf ++ elemBytes b).length % s = 0 := by
          simp [hone.2]
          omega
        have hrest := ih (fun x hx => hok x (by simp [hx])) (buf ++ elemBytes b)
          hal2
        constructor
        · rw [marshallList, marshallType, hone.1]
          dsimp only
          rw [hrest.1]
          simp [itemBytes]
        · simp only [List.map_cons, List.flatten_cons, List.length_append,
            List.length_cons, itemBytes]
          rw [hone.2, hrest.2]
          ring
      · exact absurd (hok (.container c) (by simp)) (by simp [itemOk])

theorem arrayDecodeAt_shift (dec : List Nat → Option (List Nat × BasicV))
    (s : Nat) (E D : List Nat) (hE : E.length = s) (pos : Nat) :
    arrayDecodeAt dec (E ++ D) (pos + s) = arrayDecodeAt dec D pos := by
  unfold arrayDecodeAt
  have hdrop : (E ++ D).drop (pos + s) = D.drop pos := by
    rw [List.drop_append_eq_append_drop]
    rw [List.drop_of_length_le (by omega), List.nil_append]
    congr 1
    omega
  rw [hdrop]
  simp only [List.length_append, hE]
  split
  · rw [if_pos (by omega)]
  · rw [if_neg (by omega)]

theorem decodeAtPositions_shift (dec : List Nat → Option (List Nat × BasicV))
    (s : Nat) (E D : List Nat) (hE : E.length = s) (ps : List Nat) :
    decodeAtPositions dec (E ++ D) (ps.map (· + s)) =
      decodeAtPositions dec D ps := by
  induction ps with
  | nil => rfl
  | cons pos ps ih =>
      rw [List.map_cons, decodeAtPositions, decodeAtPositions]
      rw [arrayDecodeAt_shift dec s E D hE pos, ih]

theorem decode_loop_fixed (dec : List Nat → Option (List Nat × BasicV))
    (s : Nat) :
    ∀ (items : List TypeV),
    (∀ it ∈ items, (itemBytes it).length = s) →
    (∀ it ∈ items, ∀ rest, ∃ r b, it = TypeV.basic b ∧
      dec (itemBytes it ++ rest) = some (r, b)) →
    decodeAtPositions dec ((items.map itemBytes).flatten)
      ((List.range items.length).map (· * s)) = some items := by
  intro items
  induction items with
  | nil =>
      intro _ _
      rfl
  | cons it rest ih =>
      intro hlen hdec
      have hps : (List.range (rest.length + 1)).map (· * s) =
          0 :: ((List.range rest.length).map (· * s)).map (· + s) := by
        rw [List.range_succ_eq_map]
        simp [List.map_map, Nat.succ_mul]
      simp only [List.length_cons, List.map_cons, List.flatten_cons]
      rw [hps, decodeAtPositions]
      obtain ⟨r, b, hb, hdecb⟩ := hdec it (by simp)
        ((rest.map itemBytes).flatten)
      have h0 : arrayDecodeAt dec
          (itemBytes it ++ (rest.map itemBytes).flatten) 0 =
          some (.basic b) := by
        unfold arrayDecodeAt
        rw [if_pos (by omega)]
        rw [List.drop_zero, hdecb]
      rw [h0]
      dsimp only
      rw [decodeAtPositions_shift dec s _ _ (hlen it (by simp))]
      rw [ih (fun x hx => hlen x (by simp [hx]))
        (fun x hx => hdec x (by simp [hx]))]
      rw [← hb]

theorem stepPositions_mul (n s : Nat) (hs : 0 < s) :
    stepPositions (n * s) s = (List.range n).map (· * s) := by
  unfold stepPositions
  have h2 : n * s + s - 1 = s - 1 + s * n := by
    rw [Nat.mul_comm]
    omega
  rw [h2, Nat.add_mul_div_left _ _ hs, Nat.div_eq_of_lt (by omega),
    Nat.zero_add]


theorem tagP_exact (t rest : List Nat) : tagP t (t ++ rest) = some rest := by
  unfold tagP
  rw [if_pos ⟨by simp, by rw [List.take_left]⟩, List.drop_left]

theorem itemBytes_length_fixed (t : SCTS) (s : Nat)
    (hts : fixedElemSize t = some s) (it : TypeV)
    (hok : itemOk t it = true) : (itemBytes it).length = s := by
  rcases it with b | c
  · exact (marshallBasic_fixed t s hts b hok [] (by simp)).2
  · exact absurd hok (by simp [itemOk])

/-- Round trip for an array of one fixed-width basic element kind: encoding
from offset 0 then decoding under the element signature recovers the items
(the remaining input is the element bytes themselves, which the decoder
does not consume). -/
theorem array_roundtrip_case (t : SCTS) (s : Nat)
    (hts : fixedElemSize t = some s) (hs0 : 0 < s)
    (hmb : t.marshalling_boundary = s)
    (hpad : alignPad 4 s = if 4 < s then 4 % s else 0)
    (dec : List Nat → Option (List Nat × BasicV))
    (hdecm : elemDecoder t = some dec)
    (hstep : elemStep t = s)
    (items : List TypeV) (hok : ∀ it ∈ items, itemOk t it = true)
    (hdec : ∀ it ∈ items, ∀ rest, ∃ r b, it = TypeV.basic b ∧
      dec (itemBytes it ++ rest) = some (r, b))
    (hlt : items.length * s < 2 ^ 32) :
    ∃ B rem, marshallContainer [] (.array t items) = some B ∧
      unmarshallDBusArray B t = some (rem, .array t items) := by
  have hkey := marshallList_fixed t s hts items hok
    (alignTo [0, 0, 0, 0] t.marshalling_boundary)
    (by rw [hmb]; exact alignTo_length_mod _ _ hs0)
  have hD := hkey.2
  refine ⟨natToBEBytes 4 ((items.map itemBytes).flatten).length ++
    (List.replicate (alignPad 4 s) 0 ++ (items.map itemBytes).flatten),
    (items.map itemBytes).flatten, ?_, ?_⟩
  · rw [marshallContainer]
    have halign0 : alignTo ([] : List Nat) 4 = [] := by
      rw [alignTo_of_mod_zero]
      simp
    rw [halign0]
    simp only [List.nil_append]
    rw [hkey.1]
    dsimp only
    simp only [List.length_nil]
    have hlen2 : (alignTo [0, 0, 0, 0] t.marshalling_boundary ++
        (items.map itemBytes).flatten).length -
        (alignTo [0, 0, 0, 0] t.marshalling_boundary).length =
        ((items.map itemBytes).flatten).length := by
      simp
    rw [hlen2]
    rw [if_pos (by rw [hD]; exact hlt)]
    have hsplice : spliceAt (alignTo [0, 0, 0, 0] t.marshalling_boundary ++
        (items.map itemBytes).flatten) 0
        (natToBEBytes 4 ((items.map itemBytes).flatten).length) =
        natToBEBytes 4 ((items.map itemBytes).flatten).length ++
          (List.replicate (alignPad 4 s) 0 ++ (items.map itemBytes).flatten) := by
      unfold spliceAt
      rw [List.take_zero, List.nil_append, natToBEBytes_length, Nat.zero_add]
      congr 1
      unfold alignTo
      rw [List.append_assoc, List.drop_append_eq_append_drop]
      rw [List.drop_of_length_le (by simp), List.nil_append]
      simp [hmb]
    rw [hsplice]
  · unfold unmarshallDBusArray
    rw [parseBE_natToBEBytes 4 _ _ (by rw [hD]; norm_num at hlt ⊢; omega)]
    dsimp only
    rw [hmb, hdecm]
    dsimp only
    have hi2 : (if 4 < s then
        tagP (List.replicate (4 % s) 0)
          (List.replicate (alignPad 4 s) 0 ++ (items.map itemBytes).flatten)
        else some (List.replicate (alignPad 4 s) 0 ++
          (items.map itemBytes).flatten)) =
        some ((items.map itemBytes).flatten) := by
      split
      next hlt4 =>
        rw [hpad, if_pos hlt4]
        exact tagP_exact _ _
      next hge4 =>
        rw [hpad, if_neg hge4]
        simp
    rw [hi2]
    dsimp only
    rw [hstep, hD, stepPositions_mul _ _ hs0]
    rw [decode_loop_fixed dec s items
      (fun it hit => itemBytes_length_fixed t s hts it (hok it hit)) hdec]

theorem sigElem_code (u : SCTS) (h : sigElemOk u = true) :
    ∃ c, u.serialize = [c] ∧ unmarshallBasicCode c = some u ∧
      ¬(c = 97 ∨ c = 40 ∨ c = 123) := by
  cases u <;>
    first
    | exact ⟨_, rfl, rfl, by decide⟩
    | exact absurd h (by simp [sigElemOk])

theorem serializeList_length_basic (vec : List SCTS)
    (hok : ∀ x ∈ vec, sigElemOk x = true) :
    (SCTS.serializeList vec).length = vec.length := by
  induction vec with
  | nil => rfl
  | cons u rest ih =>
      obtain ⟨c, hc1, _, _⟩ := sigElem_code u (hok u (by simp))
      rw [SCTS.serializeList, List.length_append, hc1,
        ih (fun x hx => hok x (by simp [hx]))]
      simp only [List.length_singleton, List.length_cons, List.length_nil]
      omega

theorem sigLoop_of_sig (vec : List SCTS)
    (hok : ∀ x ∈ vec, sigElemOk x = true) :
    ∀ (pre suffix : List Nat),
    sigLoop (pre ++ (SCTS.serializeList vec ++ suffix)) pre.length vec.length =
      some vec := by
  induction vec with
  | nil =>
      intro pre suffix
      rfl
  | cons u rest ih =>
      intro pre suffix
      obtain ⟨c, hc1, hc2, hc3⟩ := sigElem_code u (hok u (by simp))
      simp only [List.length_cons]
      rw [sigLoop]
      have hget : (pre ++ (SCTS.serializeList (u :: rest) ++ suffix)).get?
          pre.length = some c := by
        rw [List.get?_append_right (Nat.le_refl _)]
        rw [SCTS.serializeList, hc1]
        simp
      rw [hget]
      dsimp only
      rw [if_neg hc3, hc2]
      dsimp only
      have hre : pre ++ (SCTS.serializeList (u :: rest) ++ suffix) =
          (pre ++ [c]) ++ (SCTS.serializeList rest ++ suffix) := by
        rw [SCTS.serializeList, hc1]
        simp
      have hlen2 : pre.length + 1 = (pre ++ [c]).length := by simp
      rw [hre, hlen2, ih (fun x hx => hok x (by simp [hx]))]

theorem hdec_byte (items : List TypeV)
    (hall : ∀ it ∈ items, itemOk .byte it = true) :
    ∀ it ∈ items, ∀ rest, ∃ r b, it = TypeV.basic b ∧
      unmarshallDBusByte (itemBytes it ++ rest) = some (r, b) := by
  intro it hit rest
  have hio := hall it hit
  rcases it with b | cc
  · rcases b with n | bb | ii | nn | ii2 | nn2 | ii3 | nn3 | dd | ss | oo | vv | _ <;>
      simp only [itemOk, sctsKindEq, BasicV.signatureOf, basicValueOk, Bool.false_and,
        Bool.false_eq_true, Bool.true_and, decide_eq_true_eq] at hio
    exact ⟨rest, _, rfl, decode_elem_byte n rest⟩
  · exact absurd hio (by simp [itemOk])

theorem hdec_boolean (items : List TypeV)
    (hall : ∀ it ∈ items, itemOk .boolean it = true) :
    ∀ it ∈ items, ∀ rest, ∃ r b, it = TypeV.basic b ∧
      unmarshallDBusBoolean (itemBytes it ++ rest) = some (r, b) := by
  intro it hit rest
  have hio := hall it hit
  rcases it with b | cc
  · rcases b with n | bb | ii | nn | ii2 | nn2 | ii3 | nn3 | dd | ss | oo | vv | _ <;>
      simp only [itemOk, sctsKindEq, BasicV.signatureOf, basicValueOk, Bool.false_and,
        Bool.false_eq_true, Bool.true_and, decide_eq_true_eq] at hio
    exact ⟨rest, _, rfl, decode_elem_boolean bb rest⟩
  · exact absurd hio (by simp [itemOk])

theorem hdec_int16 (items : List TypeV)
    (hall : ∀ it ∈ items, itemOk .int16 it = true) :
    ∀ it ∈ items, ∀ rest, ∃ r b, it = TypeV.basic b ∧
      unmarshallDBusInt16 (itemBytes it ++ rest) = some (r, b) := by
  intro it hit rest
  have hio := hall it hit
  rcases it with b | cc
  · rcases b with n | bb | ii | nn | ii2 | nn2 | ii3 | nn3 | dd | ss | oo | vv | _ <;>
      simp only [itemOk, sctsKindEq, BasicV.signatureOf, basicValueOk, Bool.false_and,
        Bool.false_eq_true, Bool.true_and, decide_eq_true_eq] at hio
    exact ⟨rest, _, rfl, decode_elem_int16 ii hio.1 hio.2 rest⟩
  · exact absurd hio (by simp [itemOk])

theorem hdec_uint16 (items : List TypeV)
    (hall : ∀ it ∈ items, itemOk .uint16 it = true) :
    ∀ it ∈ items, ∀ rest, ∃ r b, it = TypeV.basic b ∧
      unmarshallDBusUint16 (itemBytes it ++ rest) = some (r, b) := by
  intro it hit rest
  have hio := hall it hit
  rcases it with b | cc
  · rcases b with n | bb | ii | nn | ii2 | nn2 | ii3 | nn3 | dd | ss | oo | vv | _ <;>
      simp only [itemOk, sctsKindEq, BasicV.signatureOf, basicValueOk, Bool.false_and,
        Bool.false_eq_true, Bool.true_and, decide_eq_true_eq] at hio
    exact ⟨rest, _, rfl, decode_elem_uint16 nn hio rest⟩
  · exact absurd hio (by simp [itemOk])

theorem hdec_int32 (items : List TypeV)
    (hall : ∀ it ∈ items, itemOk .int32 it = true) :
    ∀ it ∈ items, ∀ rest, ∃ r b, it = TypeV.basic b ∧
      unmarshallDBusInt32 (itemBytes it ++ rest) = some (r, b) := by
  intro it hit rest
  have hio := hall it hit
  rcases it with b | cc
  · rcases b with n | bb | ii | nn | ii2 | nn2 | ii3 | nn3 | dd | ss | oo | vv | _ <;>
      simp only [itemOk, sctsKindEq, BasicV.signatureOf, basicValueOk, Bool.false_and,
        Bool.false_eq_true, Bool.true_and, decide_eq_true_eq] at hio
    exact ⟨rest, _, rfl, decode_elem_int32 ii2 hio.1 hio.2 rest⟩
  · exact absurd hio (by simp [itemOk])

theorem hdec_uint32 (items : List TypeV)
    (hall : ∀ it ∈ items, itemOk .uint32 it = true) :
    ∀ it ∈ items, ∀ rest, ∃ r b, it = TypeV.basic b ∧
      unmarshallDBusUint32 (itemBytes it ++ rest) = some (r, b) := by
  intro it hit rest
  have hio := hall it hit
  rcases it with b | cc
  · rcases b with n | bb | ii | nn | ii2 | nn2 | ii3 | nn3 | dd | ss | oo | vv | _ <;>
      simp only [itemOk, sctsKindEq, BasicV.signatureOf, basicValueOk, Bool.false_and,
        Bool.false_eq_true, Bool.true_and, decide_eq_true_eq] at hio
    exact ⟨rest, _, rfl, decode_elem_uint32 nn2 hio rest⟩
  · exact absurd hio (by simp [itemOk])

theorem hdec_int64 (items : List TypeV)
    (hall : ∀ it ∈ items, itemOk .int64 it = true) :
    ∀ it ∈ items, ∀ rest, ∃ r b, it = TypeV.basic b ∧
      unmarshallDBusInt64 (itemBytes it ++ rest) = some (r, b) := by
  intro it hit rest
  have hio := hall it hit
  rcases it with b | cc
  · rcases b with n | bb | ii | nn | ii2 | nn2 | ii3 | nn3 | dd | ss | oo | vv | _ <;>
      simp only [itemOk, sctsKindEq, BasicV.signatureOf, basicValueOk, Bool.false_and,
        Bool.false_eq_true, Bool.true_and, decide_eq_true_eq] at hio
    exact ⟨rest, _, rfl, decode_elem_int64 ii3 hio.1 hio.2 rest⟩
  · exact absurd hio (by simp [itemOk])

theorem hdec_uint64 (items : List TypeV)
    (hall : ∀ it ∈ items, itemOk .uint64 it = true) :
    ∀ it ∈ items, ∀ rest, ∃ r b, it = TypeV.basic b ∧
      unmarshallDBusUint64 (itemBytes it ++ rest) = some (r, b) := by
  intro it hit rest
  have hio := hall it hit
  rcases it with b | cc
  · rcases b with n | bb | ii | nn | ii2 | nn2 | ii3 | nn3 | dd | ss | oo | vv | _ <;>
      simp only [itemOk, sctsKindEq, BasicV.signatureOf, basicValueOk, Bool.false_and,
        Bool.false_eq_true, Bool.true_and, decide_eq_true_eq] at hio
    exact ⟨rest, _, rfl, decode_elem_uint64 nn3 hio rest⟩
  · exact absurd hio (by simp [itemOk])

theorem hdec_double (items : List TypeV)
    (hall : ∀ it ∈ items, itemOk .double it = true) :
    ∀ it ∈ items, ∀ rest, ∃ r b, it = TypeV.basic b ∧
      unmarshallDBusDouble (itemBytes it ++ rest) = some (r, b) := by
  intro it hit rest
  have hio := hall it hit
  rcases it with b | cc
  · rcases b with n | bb | ii | nn | ii2 | nn2 | ii3 | nn3 | dd | ss | oo | vv | _ <;>
      simp only [itemOk, sctsKindEq, BasicV.signatureOf, basicValueOk, Bool.false_and,
        Bool.false_eq_true, Bool.true_and, decide_eq_true_eq] at hio
    exact ⟨rest, _, rfl, decode_elem_double dd hio rest⟩
  · exact absurd hio (by simp [itemOk])


/-- C1: on the fragment of the type system where both `marshall.rs` and
`unmarshall.rs` are implemented (in-range fixed-width basics, valid-UTF-8
strings, signatures over parser-supported basic codes, arrays of fixed-width
basic elements), marshalling a value from offset 0 and then unmarshalling
under the value's own signature returns exactly that value. Outside this
fragment one of the two directions is `todo!()` (object paths, Unix file
descriptors, dict entries, struct/variant reception), so the round trip as
stated over all values fails. -/
theorem value_roundtrip (V : TypeV) (hf : fragmentB V = true) :
    ∃ B rem, marshallType [] V = some B ∧
      unmarshallTypeBySig V.signatureOf B = some (rem, V) := by
  rcases V with b | c
  · rcases b with n | bb | ii | nn | ii2 | nn2 | ii3 | nn3 | dd | ss | oo | vec | _
    · refine ⟨[n], [], ?_, ?_⟩
      · rw [marshallType, marshallBasic]
        rfl
      · have h := decode_elem_byte n []
        rw [List.append_nil] at h
        simp only [elemBytes] at h
        simp [unmarshallTypeBySig, TypeV.signatureOf, BasicV.signatureOf, h]
    · refine ⟨elemBytes (.boolean bb), [], ?_, ?_⟩
      · rw [marshallType, marshallBasic]
        rfl
      · have h := decode_elem_boolean bb []
        rw [List.append_nil] at h
        simp [unmarshallTypeBySig, TypeV.signatureOf, BasicV.signatureOf, h]
    · have h0 := hf
      simp only [fragmentB, basicValueOk, decide_eq_true_eq] at h0
      refine ⟨elemBytes (.int16 ii), [], ?_, ?_⟩
      · rw [marshallType, marshallBasic]
        rfl
      · have h := decode_elem_int16 ii h0.1 h0.2 []
        rw [List.append_nil] at h
        simp [unmarshallTypeBySig, TypeV.signatureOf, BasicV.signatureOf, h]
    · have h0 := hf
      simp only [fragmentB, basicValueOk, decide_eq_true_eq] at h0
      refine ⟨elemBytes (.uint16 nn), [], ?_, ?_⟩
      · rw [marshallType, marshallBasic]
        rfl
      · have h := decode_elem_uint16 nn h0 []
        rw [List.append_nil] at h
        simp [unmarshallTypeBySig, TypeV.signatureOf, BasicV.signatureOf, h]
    · have h0 := hf
      simp only [fragmentB, basicValueOk, decide_eq_true_eq] at h0
      refine ⟨elemBytes (.int32 ii2), [], ?_, ?_⟩
      · rw [marshallType, marshallBasic]
        rfl
      · have h := decode_elem_int32 ii2 h0.1 h0.2 []
        rw [List.append_nil] at h
        simp [unmarshallTypeBySig, TypeV.signatureOf, BasicV.signatureOf, h]
    · have h0 := hf
      simp only [fragmentB, basicValueOk, decide_eq_true_eq] at h0
      refine ⟨elemBytes (.uint32 nn2), [], ?_, ?_⟩
      · rw [marshallType, marshallBasic]
        rfl
      · have h := decode_elem_uint32 nn2 h0 []
        rw [List.append_nil] at h
        simp [unmarshallTypeBySig, TypeV.signatureOf, BasicV.signatureOf, h]
    · have h0 := hf
      simp only [fragmentB, basicValueOk, decide_eq_true_eq] at h0
      refine ⟨elemBytes (.int64 ii3), [], ?_, ?_⟩
      · rw [marshallType, marshallBasic]
        rfl
      · have h := decode_elem_int64 ii3 h0.1 h0.2 []
        rw [List.append_nil] at h
        simp [unmarshallTypeBySig, TypeV.signatureOf, BasicV.signatureOf, h]
    · have h0 := hf
      simp only [fragmentB, basicValueOk, decide_eq_true_eq] at h0
      refine ⟨elemBytes (.uint64 nn3), [], ?_, ?_⟩
      · rw [marshallType, marshallBasic]
        rfl
      · have h := decode_elem_uint64 nn3 h0 []
        rw [List.append_nil] at h
        simp [unmarshallTypeBySig, TypeV.signatureOf, BasicV.signatureOf, h]
    · have h0 := hf
      simp only [fragmentB, basicValueOk, decide_eq_true_eq] at h0
      refine ⟨elemBytes (.double dd), [], ?_, ?_⟩
      · rw [marshallType, marshallBasic]
        rfl
      · have h := decode_elem_double dd h0 []
        rw [List.append_nil] at h
        simp [unmarshallTypeBySig, TypeV.signatureOf, BasicV.signatureOf, h]
    · have h0 := hf
      simp only [fragmentB, basicValueOk, Bool.and_eq_true, decide_eq_true_eq] at h0
      refine ⟨natToBEBytes 4 ss.length ++ (ss ++ [0]), [], ?_, ?_⟩
      · rw [marshallType, marshallBasic]
        unfold marshallString
        rw [if_pos h0.2]
        rw [alignTo_of_mod_zero _ _ (by simp)]
        simp
      · have hdec : unmarshallDBusString (natToBEBytes 4 ss.length ++ (ss ++ [0])) =
            some ([], .string ss) := by
          unfold unmarshallDBusString
          rw [parseBE_natToBEBytes 4 ss.length (ss ++ [0])
            (by have := h0.2; norm_num at this ⊢; omega)]
          dsimp only
          rw [takeN_exact ss.length ss [0] rfl]
          dsimp only
          rw [if_pos h0.1]
          rfl
        simp [unmarshallTypeBySig, TypeV.signatureOf, BasicV.signatureOf, hdec]
    · exact absurd hf (by simp [fragmentB, basicValueOk])
    · have h0 := hf
      simp only [fragmentB, Bool.and_eq_true, List.all_eq_true,
        decide_eq_true_eq] at h0
      have hserlen := serializeList_length_basic vec h0.1
      have hlen8 : (SCTS.serializeList vec).length < 2 ^ 8 := by
        rw [hserlen]
        exact h0.2
      refine ⟨(SCTS.serializeList vec).length :: (SCTS.serializeList vec ++ [0]),
        SCTS.serializeList vec ++ [0], ?_, ?_⟩
      · rw [marshallType, marshallBasic]
        unfold marshallSignatureV
        rw [if_pos hlen8]
        simp
      · have hsl := sigLoop_of_sig vec h0.1 [] [0]
        simp only [List.nil_append, List.length_nil] at hsl
        have hdec : unmarshallDBusSignature
            ((SCTS.serializeList vec).length :: (SCTS.serializeList vec ++ [0])) =
            some (SCTS.serializeList vec ++ [0], .signature vec) := by
          rw [unmarshallDBusSignature]
          rw [hserlen, hsl]
        simp [unmarshallTypeBySig, TypeV.signatureOf, BasicV.signatureOf, hdec]
    · exact absurd hf (by simp [fragmentB, basicValueOk])
  · rcases c with ⟨t, items⟩ | fields | v | ⟨k, dv⟩
    · have h0 := hf
      simp only [fragmentB] at h0
      split at h0
      next hfx => exact absurd h0 (by simp)
      next size hfx =>
        rw [Bool.and_eq_true, List.all_eq_true] at h0
        obtain ⟨hall, hltd⟩ := h0
        have hlt := of_decide_eq_true hltd
        cases t
        · injection hfx with hsz
          subst hsz
          obtain ⟨B, rem, h1, h2⟩ := array_roundtrip_case .byte 1 rfl
            (by norm_num) rfl (by decide) unmarshallDBusByte rfl rfl items hall
            (hdec_byte items hall) hlt
          refine ⟨B, rem, ?_, ?_⟩
          · rw [marshallType]
            exact h1
          · simp [unmarshallTypeBySig, TypeV.signatureOf, ContainerV.signatureOf, h2]
        · injection hfx with hsz
          subst hsz
          obtain ⟨B, rem, h1, h2⟩ := array_roundtrip_case .boolean 4 rfl
            (by norm_num) rfl (by decide) unmarshallDBusBoolean rfl rfl items hall
            (hdec_boolean items hall) hlt
          refine ⟨B, rem, ?_, ?_⟩
          · rw [marshallType]
            exact h1
          · simp [unmarshallTypeBySig, TypeV.signatureOf, ContainerV.signatureOf, h2]
        · injection hfx with hsz
          subst hsz
          obtain ⟨B, rem, h1, h2⟩ := array_roundtrip_case .int16 2 rfl
            (by norm_num) rfl (by decide) unmarshallDBusInt16 rfl rfl items hall
            (hdec_int16 items hall) hlt
          refine ⟨B, rem, ?_, ?_⟩
          · rw [marshallType]
            exact h1
          · simp [unmarshallTypeBySig, TypeV.signatureOf, ContainerV.signatureOf, h2]
        · injection hfx with hsz
          subst hsz
          obtain ⟨B, rem, h1, h2⟩ := array_roundtrip_case .uint16 2 rfl
            (by norm_num) rfl (by decide) unmarshallDBusUint16 rfl rfl items hall
            (hdec_uint16 items hall) hlt
          refine ⟨B, rem, ?_, ?_⟩
          · rw [marshallType]
            exact h1
          · simp [unmarshallTypeBySig, TypeV.signatureOf, ContainerV.signatureOf, h2]
        · injection hfx with hsz
          subst hsz
          obtain ⟨B, rem, h1, h2⟩ := array_roundtrip_case .int32 4 rfl
            (by norm_num) rfl (by decide) unmarshallDBusInt32 rfl rfl items hall
            (hdec_int32 items hall) hlt
          refine ⟨B, rem, ?_, ?_⟩
          · rw [marshallType]
            exact h1
          · simp [unmarshallTypeBySig, TypeV.signatureOf, ContainerV.signatureOf, h2]
        · injection hfx with hsz
          subst hsz
          obtain ⟨B, rem, h1, h2⟩ := array_roundtrip_case .uint32 4 rfl
            (by norm_num) rfl (by decide) unmarshallDBusUint32 rfl rfl items hall
            (hdec_uint32 items hall) hlt
          refine ⟨B, rem, ?_, ?_⟩
          · rw [marshallType]
            exact h1
          · simp [unmarshallTypeBySig, TypeV.signatureOf, ContainerV.signatureOf, h2]
        · injection hfx with hsz
          subst hsz
          obtain ⟨B, rem, h1, h2⟩ := array_roundtrip_case .int64 8 rfl
            (by norm_num) rfl (by decide) unmarshallDBusInt64 rfl rfl items hall
            (hdec_int64 items hall) hlt
          refine ⟨B, rem, ?_, ?_⟩
          · rw [marshallType]
            exact h1
          · simp [unmarshallTypeBySig, TypeV.signatureOf, ContainerV.signatureOf, h2]
        · injection hfx with hsz
          subst hsz
          obtain ⟨B, rem, h1, h2⟩ := array_roundtrip_case .uint64 8 rfl
            (by norm_num) rfl (by decide) unmarshallDBusUint64 rfl rfl items hall
            (hdec_uint64 items hall) hlt
          refine ⟨B, rem, ?_, ?_⟩
          · rw [marshallType]
            exact h1
          · simp [unmarshallTypeBySig, TypeV.signatureOf, ContainerV.signatureOf, h2]
        · injection hfx with hsz
          subst hsz
          obtain ⟨B, rem, h1, h2⟩ := array_roundtrip_case .double 8 rfl
            (by norm_num) rfl (by decide) unmarshallDBusDouble rfl rfl items hall
            (hdec_double items hall) hlt
          refine ⟨B, rem, ?_, ?_⟩
          · rw [marshallType]
            exact h1
          · simp [unmarshallTypeBySig, TypeV.signatureOf, ContainerV.signatureOf, h2]
        · exact Option.noConfusion hfx
        · exact Option.noConfusion hfx
        · exact Option.noConfusion hfx
        · exact Option.noConfusion hfx
        · exact Option.noConfusion hfx
        · exact Option.noConfusion hfx
        · exact Option.noConfusion hfx
        · exact Option.noConfusion hfx
    · exact absurd hf (by simp [fragmentB])
    · exact absurd hf (by simp [fragmentB])
    · exact absurd hf (by simp [fragmentB])


/-- Witness for the round trip: an array of two bytes is in the fragment
and round-trips. -/
theorem value_roundtrip_witness :
    fragmentB (.container (.array .byte [.basic (.byte 15), .basic (.byte 16)]))
      = true ∧
    ∃ B rem,
      marshallType []
        (.container (.array .byte [.basic (.byte 15), .basic (.byte 16)])) =
          some B ∧
      unmarshallTypeBySig
        (TypeV.signatureOf
          (.container (.array .byte [.basic (.byte 15), .basic (.byte 16)]))) B =
        some (rem,
          .container (.array .byte [.basic (.byte 15), .basic (.byte 16)])) :=
  ⟨by decide,
    value_roundtrip
      (.container (.array .byte [.basic (.byte 15), .basic (.byte 16)]))
      (by decide)⟩

/-- Counterexample to the unrestricted claim: a struct of one byte marshals
(to the byte itself, from offset 0), but the struct arm of reception is
`todo!()`, so decoding under the struct's own signature fails. -/
theorem value_roundtrip_counterexample :
    marshallType [] (.container (.struct [.basic (.byte 7)])) = some [7] ∧
    unmarshallTypeBySig
      (TypeV.signatureOf (.container (.struct [.basic (.byte 7)]))) [7] = none :=
  ⟨rfl, rfl⟩

end DBusStream
